import Mathlib

/-!
# Verification development for `main.c` (SemaphoresGoBrrr)

A shallow embedding of the synchronisation toolkit (`Mutex`, `Barrier`), of the
card game built on it (`worker_run`, `server_run`) and of the sequential helpers
(`worker_draw`, the scoring loops), together with theorems about them.

Conventions.
* C `int` values are `Int`; counters that only count up from `0` (loop indices,
  semaphore values) are `Nat`.  All quantities of the program stay far below
  `2^31` (at most 5 players, 10 cards), so no wrap-around arithmetic occurs.
* C arrays are functions `Nat → Int` updated with `Function.update`.
* POSIX semaphores are their value: `sem_wait` is enabled only when the value
  is positive and decrements it, `sem_post` increments it.
* Concurrent code is a step function `step state pid : Option state`, one atomic
  step of process `pid`, `none` when that process is blocked or finished.
-/

namespace SemaphoresGoBrrr

/-- The constant `#define MAX_PLAYERS 5`. -/
def MAX_PLAYERS : Nat := 5

/-- The constant `#define MAX_CARDS 10`. -/
def MAX_CARDS : Nat := 10

/-- Sum of `f 0, …, f (n-1)`. -/
def sumTo : Nat → (Nat → Nat) → Nat
  | 0, _ => 0
  | n + 1, f => sumTo n f + f n

/-! ## Round scoring (`server_run`, lines 219-238) -/

/-- Body of the first loop over `j` (lines 222-227), acting on `(max, cnt)`. -/
def scanBody (buf : Nat → Int) (j : Nat) (mc : Int × Int) : Int × Int :=
  if buf j > mc.1 then (buf j, 1)
  else if buf j = mc.1 then (mc.1, mc.2 + 1)
  else mc

/-- The first loop after `j` iterations, started from `max = 0; cnt = 0`
(lines 219-228). -/
def scanLoop (buf : Nat → Int) : Nat → Int × Int
  | 0 => (0, 0)
  | j + 1 => scanBody buf j (scanLoop buf j)

/-- The memory the second loop writes: the shared `buf` and the local `results`. -/
structure Tally where
  buf : Nat → Int
  results : Nat → Int

/-- Body of the second loop over `j` (lines 230-237); `/` of C truncates. -/
def scoreBody (players max cnt : Int) (t : Tally) (j : Nat) : Tally :=
  if t.buf j = max then
    { buf := Function.update t.buf j (Int.tdiv players cnt)
      results := Function.update t.results j (t.results j + Int.tdiv players cnt) }
  else
    { t with buf := Function.update t.buf j 0 }

/-- The second loop after `j` iterations (lines 229-238). -/
def scoreLoop (players max cnt : Int) (t : Tally) : Nat → Tally
  | 0 => t
  | j + 1 => scoreBody players max cnt (scoreLoop players max cnt t j) j

/-- One scoring pass of `server_run` for `n` players (lines 219-238). -/
def scoringPass (n : Nat) (t : Tally) : Tally :=
  scoreLoop n (scanLoop t.buf n).1 (scanLoop t.buf n).2 t n

/-- Number of the first `n` slots of `buf` holding the value `v`. -/
def countEq (buf : Nat → Int) (v : Int) (n : Nat) : Nat :=
  sumTo n (fun i => if buf i = v then 1 else 0)

/-- The `buf` used in the worked example of the scoring rule: `[7, 7, 3, 7]`. -/
def exampleCards : Nat → Int := fun j => [7, 7, 3, 7].getD j 0

/-! ## Worker card pool (`worker_new`, `worker_draw`, lines 160-190) -/

/-- The struct `Worker` (lines 160-164). -/
structure Worker where
  index : Nat
  cards : Nat → Int
  remaining : Int

/-- The loop `for (i = 1; i <= worker.remaining; i++) worker.cards[i] = i` of
`worker_new` after `j` iterations (lines 172-174); `cards` is the array before
the loop. -/
def fillCards (cards : Nat → Int) : Nat → (Nat → Int)
  | 0 => cards
  | j + 1 => Function.update (fillCards cards j) (j + 1) ((j + 1 : Nat) : Int)

/-- The `Worker` built by `worker_new(index, data)` before the `fork`
(lines 169-174), for `data->server->cards = m`; `garbage` is the content of the
uninitialised stack array `cards`. -/
def worker_new (index : Nat) (m : Nat) (garbage : Nat → Int) : Worker :=
  { index := index, cards := fillCards garbage m, remaining := m }

/-- The function `worker_draw` (lines 184-190); `r` is the outcome of `rand()`, a non-negative
`int`; `%` of C truncates.  Returns the card and the updated `Worker`. -/
def worker_draw (w : Worker) (r : Nat) : Int × Worker :=
  let index : Int := 1 + Int.tmod (r : Int) w.remaining
  let card : Int := w.cards index.toNat
  (card,
   { w with
     cards := Function.update w.cards index.toNat (w.cards w.remaining.toNat)
     remaining := w.remaining - 1 })

/-- Successive calls of `worker_draw`, one per outcome of `rand()` in the list:
the cards returned, in order, and the final `Worker`. -/
def drawAll : Worker → List Nat → List Int × Worker
  | w, [] => ([], w)
  | w, r :: rs =>
    ((worker_draw w r).1 :: (drawAll (worker_draw w r).2 rs).1,
     (drawAll (worker_draw w r).2 rs).2)

/-! ## `Mutex` (lines 25-54) -/

/-- The shared object behind one `Mutex` name: the value of its semaphore `sem`
(`fd` and `name` play no role in locking). -/
structure Mutex where
  sem : Nat

/-- One mutex name as seen by all processes: `shm` is the shared object (`none`
while the name does not exist); `opened p` records that process `p` has called
`mtx_open`, `holds p` that `p` has returned from `mtx_lock` and not yet called
`mtx_unlock` (both are bookkeeping, the code stores no owner). -/
structure MtxState where
  shm : Option Mutex
  opened : Nat → Bool
  holds : Nat → Bool

/-- No process has opened the name yet. -/
def mtxInit : MtxState :=
  { shm := none, opened := fun _ => false, holds := fun _ => false }

/-- The call `mtx_open` by process `p` (lines 31-40): `shm_open` with `O_CREAT` creates the
object or attaches to the existing one, and `sem_init(&mtx->sem, 1, 1)` then sets
the semaphore value to `1` in either case (on an already initialised semaphore
POSIX leaves the effect of `sem_init` undefined; the value is overwritten, as
glibc does). -/
def mtx_open (s : MtxState) (p : Nat) : MtxState :=
  { s with shm := some { sem := 1 }, opened := Function.update s.opened p true }

/-- The call `mtx_lock` by process `p` (lines 42-44): `sem_wait`; `none` while `p` is blocked
or when the name was never opened. -/
def mtx_lock (s : MtxState) (p : Nat) : Option MtxState :=
  match s.shm with
  | none => none
  | some m =>
    if 0 < m.sem then
      some { s with shm := some { sem := m.sem - 1 }, holds := Function.update s.holds p true }
    else none

/-- The call `mtx_unlock` by process `p` (lines 46-48): `sem_post`. -/
def mtx_unlock (s : MtxState) (p : Nat) : Option MtxState :=
  match s.shm with
  | none => none
  | some m =>
    some { s with shm := some { sem := m.sem + 1 }, holds := Function.update s.holds p false }

/-- The operations a process can apply to the name. -/
inductive MtxOp
  | doOpen (p : Nat)
  | doLock (p : Nat)
  | doUnlock (p : Nat)

/-- One operation under the cooperative discipline: a process locks only after it
opened the name and unlocks only while it holds the lock; `none` when the
discipline is broken or the caller blocks. -/
def mtxStep (s : MtxState) : MtxOp → Option MtxState
  | .doOpen p => some (mtx_open s p)
  | .doLock p => if s.opened p = true then mtx_lock s p else none
  | .doUnlock p => if s.holds p = true then mtx_unlock s p else none

/-- A sequence of operations, each completing before the next starts. -/
def mtxRun : MtxState → List MtxOp → Option MtxState
  | s, [] => some s
  | s, op :: ops =>
    match mtxStep s op with
    | none => none
    | some s1 => mtxRun s1 ops

/-- The semaphore value of the name, `0` when it does not exist. -/
def MtxState.value (s : MtxState) : Nat :=
  match s.shm with
  | none => 0
  | some m => m.sem

/-! ## `Barrier` (lines 56-111) -/

/-- The shared fields of `Barrier` (lines 56-64); the three semaphores are their
values. -/
structure Barrier where
  strength : Int
  count : Int
  mutex : Nat
  turnstile_pre : Nat
  turnstile_post : Nat

/-- The function `br_open` (lines 66-80). -/
def br_open (strength : Int) : Barrier :=
  { strength := strength, count := 0, mutex := 1, turnstile_pre := 0, turnstile_post := 0 }

/-- Program points of a process with respect to `br_join` (lines 82-103): the
point names the statement the process executes next. -/
inductive JPc
  /-- Not inside `br_join`: the caller's own code. -/
  | out
  /-- Line 84, `sem_wait(&barrier->mutex)`. -/
  | lock1
  /-- Line 85, `barrier->count += 1`. -/
  | inc
  /-- Line 86, `if (barrier->count == barrier->strength)`. -/
  | test1
  /-- Lines 87-88, the loop of `sem_post(&barrier->turnstile_pre)` with index `i`. -/
  | post1 (i : Nat)
  /-- Line 91, `sem_post(&barrier->mutex)`. -/
  | unlock1
  /-- Line 92, `sem_wait(&barrier->turnstile_pre)`. -/
  | wait1
  /-- Line 94, `sem_wait(&barrier->mutex)`. -/
  | lock2
  /-- Line 95, `barrier->count -= 1`. -/
  | dec
  /-- Line 96, `if (barrier->count == 0)`. -/
  | test2
  /-- Lines 97-98, the loop of `sem_post(&barrier->turnstile_post)` with index `i`. -/
  | post2 (i : Nat)
  /-- Line 101, `sem_post(&barrier->mutex)`. -/
  | unlock2
  /-- Line 102, `sem_wait(&barrier->turnstile_post)`. -/
  | wait2
  deriving DecidableEq

/-- Control state of one process: `gen` is the number of `br_join` calls it has
returned from (its current call is call number `gen`, counted from `0`), `pc` its
program point. -/
structure Ctl where
  gen : Nat
  pc : JPc

/-- One atomic step of a process inside `br_join` (lines 84-102) on the shared
`Barrier`; `none` when the process is blocked in a `sem_wait` or is not inside
`br_join`.  Returning from the last `sem_wait` ends the call. -/
def br_join_step (b : Barrier) (c : Ctl) : Option (Barrier × Ctl) :=
  match c.pc with
  | .out => none
  | .lock1 =>
    if 0 < b.mutex then some ({ b with mutex := b.mutex - 1 }, { c with pc := .inc }) else none
  | .inc => some ({ b with count := b.count + 1 }, { c with pc := .test1 })
  | .test1 =>
    if b.count = b.strength then some (b, { c with pc := .post1 0 })
    else some (b, { c with pc := .unlock1 })
  | .post1 i =>
    if (i : Int) < b.strength then
      some ({ b with turnstile_pre := b.turnstile_pre + 1 }, { c with pc := .post1 (i + 1) })
    else some (b, { c with pc := .unlock1 })
  | .unlock1 => some ({ b with mutex := b.mutex + 1 }, { c with pc := .wait1 })
  | .wait1 =>
    if 0 < b.turnstile_pre then
      some ({ b with turnstile_pre := b.turnstile_pre - 1 }, { c with pc := .lock2 })
    else none
  | .lock2 =>
    if 0 < b.mutex then some ({ b with mutex := b.mutex - 1 }, { c with pc := .dec }) else none
  | .dec => some ({ b with count := b.count - 1 }, { c with pc := .test2 })
  | .test2 =>
    if b.count = 0 then some (b, { c with pc := .post2 0 })
    else some (b, { c with pc := .unlock2 })
  | .post2 i =>
    if (i : Int) < b.strength then
      some ({ b with turnstile_post := b.turnstile_post + 1 }, { c with pc := .post2 (i + 1) })
    else some (b, { c with pc := .unlock2 })
  | .unlock2 => some ({ b with mutex := b.mutex + 1 }, { c with pc := .wait2 })
  | .wait2 =>
    if 0 < b.turnstile_post then
      some ({ b with turnstile_post := b.turnstile_post - 1 }, { gen := c.gen + 1, pc := .out })
    else none

/-- A barrier together with the control states of the processes using it. -/
structure BSys where
  bar : Barrier
  ctl : Nat → Ctl

/-- Process `p` takes one step inside `br_join`. -/
def BSys.joinStep (s : BSys) (p : Nat) : Option BSys :=
  match br_join_step s.bar (s.ctl p) with
  | none => none
  | some (b, c) => some { bar := b, ctl := Function.update s.ctl p c }

/-- Process `p`, outside `br_join`, calls it: control moves to line 84. -/
def BSys.call (s : BSys) (p : Nat) : BSys :=
  { s with ctl := Function.update s.ctl p { gen := (s.ctl p).gen, pc := .lock1 } }

/-- One step of process `p` in the system where every process runs
`for (;;) br_join(barrier);`. -/
def loopStep (s : BSys) (p : Nat) : Option BSys :=
  if (s.ctl p).pc = .out then some (s.call p) else s.joinStep p

/-- The barrier just opened with strength `k`, no process inside `br_join`. -/
def loopInit (k : Nat) : BSys :=
  { bar := br_open k, ctl := fun _ => { gen := 0, pc := .out } }

/-- States reachable by `k` processes (numbered `0..k-1`) that repeatedly call
`br_join` on one barrier opened with strength `k`. -/
inductive LoopReach (k : Nat) : BSys → Prop
  | init : LoopReach k (loopInit k)
  | step {s s1 : BSys} (p : Nat) : LoopReach k s → p < k → loopStep s p = some s1 →
      LoopReach k s1

/-- Position of a program point in the cycle of `br_join`: `0` before the
increment of `count`, `1` from the increment until the return from
`sem_wait(turnstile_pre)`, `2` from there until the decrement, `3` from the
decrement until the return from `sem_wait(turnstile_post)`. -/
@[simp] def stage : JPc → Nat
  | .out => 0 | .lock1 => 0 | .inc => 0
  | .test1 => 1 | .post1 _ => 1 | .unlock1 => 1 | .wait1 => 1
  | .lock2 => 2 | .dec => 2
  | .test2 => 3 | .post2 _ => 3 | .unlock2 => 3 | .wait2 => 3

/-- Process `p` has executed the increment of `count` of its call number `g`. -/
def incDone (s : BSys) (p g : Nat) : Prop :=
  g < (s.ctl p).gen ∨ ((s.ctl p).gen = g ∧ 1 ≤ stage (s.ctl p).pc)

/-- Process `p` has returned from `sem_wait(turnstile_pre)` of its call number `g`. -/
def preDone (s : BSys) (p g : Nat) : Prop :=
  g < (s.ctl p).gen ∨ ((s.ctl p).gen = g ∧ 2 ≤ stage (s.ctl p).pc)

/-- Process `p` has executed the decrement of `count` of its call number `g`. -/
def decDone (s : BSys) (p g : Nat) : Prop :=
  g < (s.ctl p).gen ∨ ((s.ctl p).gen = g ∧ 3 ≤ stage (s.ctl p).pc)

/-- Process `p` has returned from `sem_wait(turnstile_post)` of its call number
`g`, that is, from the call itself. -/
def postDone (s : BSys) (p g : Nat) : Prop :=
  g < (s.ctl p).gen

/-- Process `p` has begun its call number `g`: it has executed the first
`sem_wait(mutex)` of that call. -/
def begun (s : BSys) (p g : Nat) : Prop :=
  g < (s.ctl p).gen ∨ ((s.ctl p).gen = g ∧ (s.ctl p).pc ≠ .out ∧ (s.ctl p).pc ≠ .lock1)

/-- Weight `1` at the program points where the process holds `mutex`. -/
@[simp] def hold : JPc → Nat
  | .inc => 1 | .test1 => 1 | .post1 _ => 1 | .unlock1 => 1
  | .dec => 1 | .test2 => 1 | .post2 _ => 1 | .unlock2 => 1
  | _ => 0

/-- Indicator of stage 1. -/
@[simp] def is1 : JPc → Nat
  | .test1 => 1 | .post1 _ => 1 | .unlock1 => 1 | .wait1 => 1
  | _ => 0

/-- Indicator of stage 2. -/
@[simp] def is2 : JPc → Nat
  | .lock2 => 1 | .dec => 1
  | _ => 0

/-- Indicator of stage 3. -/
@[simp] def is3 : JPc → Nat
  | .test2 => 1 | .post2 _ => 1 | .unlock2 => 1 | .wait2 => 1
  | _ => 0

/-- Posts of `turnstile_pre` still owed by a process at the test of line 86. -/
@[simp] def tw1 (k : Nat) : JPc → Nat
  | .test1 => k
  | _ => 0

/-- Posts of `turnstile_pre` still owed by a process inside the loop of line 87. -/
@[simp] def pw1 (k : Nat) : JPc → Nat
  | .post1 i => k - i
  | _ => 0

/-- Posts of `turnstile_post` still owed by a process at the test of line 96. -/
@[simp] def tw2 (k : Nat) : JPc → Nat
  | .test2 => k
  | _ => 0

/-- Posts of `turnstile_post` still owed by a process inside the loop of line 97. -/
@[simp] def pw2 (k : Nat) : JPc → Nat
  | .post2 i => k - i
  | _ => 0

/-- Weight `1` inside the critical section of the exit phase (lines 96-101). -/
@[simp] def h2 : JPc → Nat
  | .test2 => 1 | .post2 _ => 1 | .unlock2 => 1
  | _ => 0

/-- Weight `1` at the other program points where the process holds `mutex`
(lines 85-91 and line 95). -/
@[simp] def hE : JPc → Nat
  | .inc => 1 | .test1 => 1 | .post1 _ => 1 | .unlock1 => 1 | .dec => 1
  | _ => 0

/-- Sum of the weight `w` of the program points of processes `0..k-1`. -/
def wsum (k : Nat) (ctl : Nat → Ctl) (w : JPc → Nat) : Nat :=
  sumTo k (fun q => w (ctl q).pc)

/-- Where a process can be during the filling phase of generation `g`. -/
def locU (g : Nat) (c : Ctl) : Prop :=
  (c.gen = g ∧ stage c.pc ≤ 1) ∨ (c.gen + 1 = g ∧ stage c.pc = 3)

/-- Where a process can be during the draining phase of generation `g`. -/
def locD (g : Nat) (c : Ctl) : Prop :=
  c.gen = g ∧ 1 ≤ stage c.pc

/-- Filling phase of generation `g`: processes are still leaving generation `g-1`
through `turnstile_post` or arriving in generation `g`. -/
structure PhaseU (k g : Nat) (s : BSys) : Prop where
  loc : ∀ q, q < k → locU g (s.ctl q)
  cnt : s.bar.count = (wsum k s.ctl is1 : Int)
  lt : s.bar.count < (k : Int)
  pre : s.bar.turnstile_pre = 0
  nopost : wsum k s.ctl (pw1 k) = 0
  post : s.bar.turnstile_post + (wsum k s.ctl (tw2 k) + wsum k s.ctl (pw2 k)) = wsum k s.ctl is3
  excl : wsum k s.ctl h2 = 0 ∨ wsum k s.ctl is1 = 0

/-- Draining phase of generation `g`: all processes have arrived and are passing
`turnstile_pre` and decrementing `count`. -/
structure PhaseD (k g : Nat) (s : BSys) : Prop where
  loc : ∀ q, q < k → locD g (s.ctl q)
  cnt : s.bar.count = (wsum k s.ctl is1 : Int) + (wsum k s.ctl is2 : Int)
  pos : 0 < s.bar.count
  post : s.bar.turnstile_post = 0
  nopost : wsum k s.ctl (pw2 k) = 0
  pre : s.bar.turnstile_pre + (wsum k s.ctl (tw1 k) + wsum k s.ctl (pw1 k)) = wsum k s.ctl is1

/-- The inductive invariant of the barrier used by `k` processes. -/
structure BInv (k : Nat) (s : BSys) : Prop where
  str : s.bar.strength = (k : Int)
  mtx : s.bar.mutex + wsum k s.ctl hold = 1
  phase : ∃ g, PhaseU k g s ∨ PhaseD k g s

/-- Runs a schedule, skipping the entries whose process cannot move. -/
def loopExec : BSys → List Nat → BSys
  | s, [] => s
  | s, p :: ps =>
    match loopStep s p with
    | none => loopExec s ps
    | some s1 => loopExec s1 ps

instance (s : BSys) (p g : Nat) : Decidable (incDone s p g) := by
  unfold incDone; infer_instance

instance (s : BSys) (p g : Nat) : Decidable (preDone s p g) := by
  unfold preDone; infer_instance

instance (s : BSys) (p g : Nat) : Decidable (decDone s p g) := by
  unfold decDone; infer_instance

instance (s : BSys) (p g : Nat) : Decidable (postDone s p g) := by
  unfold postDone; infer_instance

instance (s : BSys) (p g : Nat) : Decidable (begun s p g) := by
  unfold begun; infer_instance

/-- A schedule of two processes (the process taking each successive step).
Process `0` arrives (5 steps), process `1` arrives last, posts `turnstile_pre`
twice and passes it (9 steps), process `0` passes and decrements (5 steps),
process `1` decrements last and posts `turnstile_post` twice (7 steps); then
process `0` returns, calls `br_join` again, takes the mutex and increments
`count` (4 steps), while process `1` still is at the last `sem_wait` of its
first call. -/
def raceSchedule : List Nat :=
  [0, 0, 0, 0, 0, 1, 1, 1, 1, 1, 1, 1, 1, 1, 0, 0, 0, 0, 0, 1, 1, 1, 1, 1, 1, 1, 0, 0, 0, 0]

/-- After 14 steps of `raceSchedule`: process `1` has passed `turnstile_pre`. -/
def entryState : BSys := loopExec (loopInit 2) (raceSchedule.take 14)

/-- After 29 steps of `raceSchedule`: process `0` is about to increment `count`
in its second call. -/
def reentryState : BSys := loopExec (loopInit 2) (raceSchedule.take 29)

/-- After `raceSchedule`: process `0` has incremented `count` in its second call. -/
def raceState : BSys := loopExec (loopInit 2) raceSchedule

/-- Both processes complete their first call. -/
def cycleSchedule : List Nat := raceSchedule.take 26 ++ [0, 1]

/-- After `cycleSchedule`: both processes are outside `br_join`. -/
def cycleState : BSys := loopExec (loopInit 2) cycleSchedule

/-- After `cycleSchedule`, process `0` arrives in its second call and process `1`
arrives last and makes the first post of `turnstile_pre`. -/
def refillState : BSys :=
  loopExec (loopInit 2) (cycleSchedule ++ [0, 0, 0, 0, 0, 1, 1, 1, 1, 1])

/-- The reusability property in the strong form: nobody begins call `g+1` before
everybody has returned from `sem_wait(turnstile_post)` of call `g`. -/
def ReusableStrong (k : Nat) : Prop :=
  ∀ s, LoopReach k s → ∀ g p q, p < k → q < k → begun s p (g + 1) → postDone s q g

/-! ## The game: `worker_run` and `server_run` (lines 192-242) -/

/-- Program points of `worker_run` (lines 192-201) outside `br_join`. -/
inductive WPc
  /-- At the loop test of line 193; the next action is `sem_wait(data->announce)`,
  of line 194 while `i < cards`, of line 199 after the loop. -/
  | wwait
  /-- Line 195, `if (i>0) printf(…, buf[index])`: the read of the score. -/
  | wread
  /-- Line 196, `buf[index] = worker_draw(worker)`. -/
  | wwrite
  /-- Line 197, the call of `br_join`. -/
  | wjoin
  /-- Line 200, `printf(…, buf[index])`: the final read of the score. -/
  | wreadF
  /-- The function `worker_run` has returned. -/
  | wdone
  deriving DecidableEq

/-- Program points of `server_run` (lines 209-242) outside `br_join`. -/
inductive SPc
  /-- Inside `server_announce` (lines 203-207, called at lines 216 and 240), loop
  index `j`. -/
  | sann (j : Nat)
  /-- Line 218, the call of `br_join`. -/
  | sjoin
  /-- Lines 219-220, `max = 0; cnt = 0`. -/
  | sreset
  /-- Lines 221-228, the first loop over `j`. -/
  | sscan (j : Nat)
  /-- Lines 229-238, the second loop over `j`. -/
  | sscore (j : Nat)
  /-- The function `server_run` has returned. -/
  | sdone
  deriving DecidableEq

/-- State of the game for `n` workers: processes `0..n-1` are the workers, process
`n` is the coordinator.  The loop variable `i` of `worker_run` and of `server_run`
is not stored: every iteration makes exactly one call of `br_join`, so `i` is the
`gen` of the process (in `server_run`, `gen - 1` after the call of the
iteration).  `wlog j` and `slog j` are history variables: the values written to
`buf[j]` by worker `j` and by the coordinator, oldest first. -/
structure GState where
  buf : Nat → Int
  sys : BSys
  announce : Nat
  wpc : Nat → WPc
  wk : Nat → Worker
  spc : SPc
  max : Int
  cnt : Int
  results : Nat → Int
  wlog : Nat → List Int
  slog : Nat → List Int

/-- The state when `main` has forked the workers and `server_run` has cleared
`results` (lines 213-215, 250-267): `buf` is the fresh, zero-filled shared memory,
the barrier has strength `n + 1`, `announce` is `0`, every worker was built by
`worker_new` and is at the top of `worker_run`; `junk j` is the uninitialised
`cards` array of worker `j`, `mx` and `cn` the uninitialised `max` and `cnt`. -/
def gInit (n m : Nat) (junk : Nat → Nat → Int) (mx cn : Int) : GState :=
  { buf := fun _ => 0
    sys := { bar := br_open ((n : Int) + 1), ctl := fun _ => { gen := 0, pc := .out } }
    announce := 0
    wpc := fun _ => .wwait
    wk := fun j => worker_new j m (junk j)
    spc := .sann 0
    max := mx
    cnt := cn
    results := fun _ => 0
    wlog := fun _ => []
    slog := fun _ => [] }

/-- One step of worker `j` outside `br_join`, for hand size `m`; `r` is the outcome
of `rand()` used if the step is the draw. -/
def worker_run_step (m : Nat) (s : GState) (j r : Nat) : Option GState :=
  match s.wpc j with
  | .wwait =>
    if 0 < s.announce then
      some { s with
        announce := s.announce - 1
        wpc := Function.update s.wpc j (if (s.sys.ctl j).gen < m then .wread else .wreadF) }
    else none
  | .wread => some { s with wpc := Function.update s.wpc j .wwrite }
  | .wwrite =>
    some { s with
      buf := Function.update s.buf (s.wk j).index (worker_draw (s.wk j) r).1
      wk := Function.update s.wk j (worker_draw (s.wk j) r).2
      wpc := Function.update s.wpc j .wjoin
      wlog := Function.update s.wlog (s.wk j).index
        (s.wlog (s.wk j).index ++ [(worker_draw (s.wk j) r).1]) }
  | .wjoin => some { s with sys := s.sys.call j, wpc := Function.update s.wpc j .wwait }
  | .wreadF => some { s with wpc := Function.update s.wpc j .wdone }
  | .wdone => none

/-- One step of the coordinator (process `n`) outside `br_join`. -/
def server_run_step (n m : Nat) (s : GState) : Option GState :=
  match s.spc with
  | .sann j =>
    if j < n then some { s with announce := s.announce + 1, spc := .sann (j + 1) }
    else some { s with spc := if (s.sys.ctl n).gen < m then .sjoin else .sdone }
  | .sjoin => some { s with sys := s.sys.call n, spc := .sreset }
  | .sreset => some { s with max := 0, cnt := 0, spc := .sscan 0 }
  | .sscan j =>
    if j < n then
      some { s with
        max := (scanBody s.buf j (s.max, s.cnt)).1
        cnt := (scanBody s.buf j (s.max, s.cnt)).2
        spc := .sscan (j + 1) }
    else some { s with spc := .sscore 0 }
  | .sscore j =>
    if j < n then
      some { s with
        buf := (scoreBody n s.max s.cnt { buf := s.buf, results := s.results } j).buf
        results := (scoreBody n s.max s.cnt { buf := s.buf, results := s.results } j).results
        spc := .sscore (j + 1)
        slog := Function.update s.slog j
          (s.slog j ++ [(scoreBody n s.max s.cnt { buf := s.buf, results := s.results } j).buf j]) }
    else some { s with spc := .sann 0 }
  | .sdone => none

/-- One atomic step of process `p` of the game with `n` workers and hand size `m`;
`none` when `p` is blocked or has finished. -/
def gstep (n m : Nat) (s : GState) (p r : Nat) : Option GState :=
  if (s.sys.ctl p).pc = .out then
    if p < n then worker_run_step m s p r
    else if p = n then server_run_step n m s
    else none
  else
    match s.sys.joinStep p with
    | none => none
    | some y => some { s with sys := y }

/-- States of the game reachable from the start of `server_run`. -/
inductive GReach (n m : Nat) : GState → Prop
  | init (junk : Nat → Nat → Int) (mx cn : Int) : GReach n m (gInit n m junk mx cn)
  | step {s s1 : GState} (p r : Nat) : GReach n m s → p ≤ n → gstep n m s p r = some s1 →
      GReach n m s1

/-- Runs a schedule of pairs (process, outcome of `rand()`), skipping the entries
whose process cannot move. -/
def gExec (n m : Nat) : GState → List (Nat × Nat) → GState
  | s, [] => s
  | s, pr :: ps =>
    match gstep n m s pr.1 pr.2 with
    | none => gExec n m s ps
    | some s1 => gExec n m s1 ps

/-- Process `p` of the game has returned from its run function. -/
def finished (n : Nat) (s : GState) (p : Nat) : Prop :=
  (s.sys.ctl p).pc = .out ∧ if p < n then s.wpc p = .wdone else s.spc = .sdone

/-- Value `1` when the worker has consumed the post of `announce` of its current
iteration. -/
def wPassed (c : Ctl) (w : WPc) : Nat :=
  if c.pc = .out ∧ w = .wwait then 0 else 1

/-- Value `1` when the worker has written its card of the current iteration. -/
def wWritten (c : Ctl) (w : WPc) : Nat :=
  if c.pc = .out ∧ w ≠ .wjoin then 0 else 1

/-- Posts of `announce` made by the coordinator since its last return from
`br_join`. -/
def sPosted (n : Nat) (c : Ctl) (sp : SPc) : Nat :=
  if c.pc = .out then
    match sp with
    | .sann j => j
    | .sjoin => n
    | .sdone => n
    | _ => 0
  else n

/-- Value `1` while the coordinator is between its return from `br_join` and the end of
the scoring loops. -/
def sScoring (c : Ctl) (sp : SPc) : Nat :=
  if c.pc = .out then
    match sp with
    | .sreset => 1
    | .sscan _ => 1
    | .sscore _ => 1
    | _ => 0
  else 0

/-- Number of scores the coordinator has written to slot `j` so far. -/
def sScored (c : Ctl) (sp : SPc) (j : Nat) : Nat :=
  if c.pc = .out then
    match sp with
    | .sreset => c.gen - 1
    | .sscan _ => c.gen - 1
    | .sscore j1 => c.gen - 1 + (if j < j1 then 1 else 0)
    | _ => c.gen
  else c.gen

/-- Local consistency of a worker's control state for hand size `m`. -/
def WLoc (m : Nat) (c : Ctl) (w : WPc) : Prop :=
  c.gen ≤ m ∧
  (c.pc ≠ .out → w = .wwait ∧ c.gen < m) ∧
  (c.pc = .out → (w = .wread ∨ w = .wwrite ∨ w = .wjoin) → c.gen < m) ∧
  (c.pc = .out → (w = .wreadF ∨ w = .wdone) → c.gen = m)

/-- Local consistency of the coordinator's control state. -/
def SLoc (n m : Nat) (c : Ctl) (sp : SPc) : Prop :=
  c.gen ≤ m ∧
  (c.pc ≠ .out → sp = .sreset ∧ c.gen < m) ∧
  (c.pc = .out → sp = .sjoin → c.gen < m) ∧
  (c.pc = .out → sp = .sdone → c.gen = m) ∧
  (sScoring c sp = 1 → 1 ≤ c.gen) ∧
  (∀ j, (sp = .sann j ∨ sp = .sscan j ∨ sp = .sscore j) → j ≤ n)

/-- What slot `j` of `buf` holds, in terms of the two histories. -/
def SlotOk (buf : Int) (wl sl : List Int) : Prop :=
  (wl.length = sl.length + 1 ∧ wl.getLast? = some buf) ∨
  (wl.length = sl.length ∧ (sl = [] ∨ sl.getLast? = some buf))

/-- The inductive invariant of the game. -/
structure GInv (n m : Nat) (s : GState) : Prop where
  bar : BInv (n + 1) s.sys
  wloc : ∀ j, j < n → WLoc m (s.sys.ctl j) (s.wpc j)
  widx : ∀ j, j < n → (s.wk j).index = j
  sloc : SLoc n m (s.sys.ctl n) s.spc
  ann : s.announce + sumTo n (fun j => (s.sys.ctl j).gen + wPassed (s.sys.ctl j) (s.wpc j)) =
    n * (s.sys.ctl n).gen + sPosted n (s.sys.ctl n) s.spc
  wlen : ∀ j, j < n → (s.wlog j).length = (s.sys.ctl j).gen + wWritten (s.sys.ctl j) (s.wpc j)
  slen : ∀ j, j < n → (s.slog j).length = sScored (s.sys.ctl n) s.spc j
  slot : ∀ j, j < n → SlotOk (s.buf j) (s.wlog j) (s.slog j)
  rem : ∀ j, j < n → (s.wk j).remaining = (m : Int) - ((s.wlog j).length : Int)

/-- Tokens of `announce` consumed by worker `j` so far. -/
def wTokens (s : GState) (j : Nat) : Nat :=
  (s.sys.ctl j).gen + wPassed (s.sys.ctl j) (s.wpc j)

/-- Process `p` cannot move: it waits on a semaphore whose value is `0`, or it has
finished. -/
def Blocked (n : Nat) (s : GState) (p : Nat) : Prop :=
  ((s.sys.ctl p).pc = .lock1 ∧ s.sys.bar.mutex = 0) ∨
  ((s.sys.ctl p).pc = .lock2 ∧ s.sys.bar.mutex = 0) ∨
  ((s.sys.ctl p).pc = .wait1 ∧ s.sys.bar.turnstile_pre = 0) ∨
  ((s.sys.ctl p).pc = .wait2 ∧ s.sys.bar.turnstile_post = 0) ∨
  ((s.sys.ctl p).pc = .out ∧ p < n ∧ s.wpc p = .wwait ∧ s.announce = 0) ∨
  finished n s p

instance (n : Nat) (s : GState) (p : Nat) : Decidable (finished n s p) := by
  unfold finished; infer_instance

/-- A schedule for one worker and hand size `3`: the coordinator announces and
enters the barrier, the worker plays its first card (`rand()` gives `4`) and
enters the barrier, the coordinator leaves the barrier and reaches the first
scoring loop. -/
def scoringSchedule : List (Nat × Nat) :=
  List.replicate 7 (1, 0) ++ List.replicate 16 (0, 4) ++ List.replicate 10 (1, 0)

/-- The schedule `scoringSchedule` continued: the coordinator scores round `0` and
announces, the worker leaves the barrier and passes `sem_wait(announce)`. -/
def readSchedule : List (Nat × Nat) :=
  scoringSchedule ++ List.replicate 5 (1, 0) ++ List.replicate 2 (0, 0)

/-- The game of one worker with hand size `3` after `scoringSchedule`. -/
def scoringState : GState :=
  gExec 1 3 (gInit 1 3 (fun _ _ => 0) 0 0) scoringSchedule

/-- The game of one worker with hand size `3` after `readSchedule`. -/
def readState : GState :=
  gExec 1 3 (gInit 1 3 (fun _ _ => 0) 0 0) readSchedule

/-- A schedule that lets the coordinator and the worker take turns (a turn of a
blocked process is skipped), long enough for a whole game of hand size `3`. -/
def fullSchedule : List (Nat × Nat) :=
  (List.replicate 100 [(1, 0), (0, 4)]).flatten

/-- The game of one worker with hand size `3` after `fullSchedule`. -/
def finalState : GState :=
  gExec 1 3 (gInit 1 3 (fun _ _ => 0) 0 0) fullSchedule

/-! # Lemmas and theorems -/

/-! ## Lemmas on sums -/

theorem sumTo_congr {n : Nat} {f g : Nat → Nat} (h : ∀ i, i < n → f i = g i) :
    sumTo n f = sumTo n g := by
  induction n with
  | zero => rfl
  | succ n ih =>
    simp only [sumTo]
    rw [ih (fun i hi => h i (Nat.lt_succ_of_lt hi)), h n (Nat.lt_succ_self n)]

theorem sumTo_eq_zero {n : Nat} {f : Nat → Nat} (h : ∀ i, i < n → f i = 0) :
    sumTo n f = 0 := by
  induction n with
  | zero => rfl
  | succ n ih =>
    simp only [sumTo]
    rw [ih (fun i hi => h i (Nat.lt_succ_of_lt hi)), h n (Nat.lt_succ_self n)]

theorem sumTo_le_of_le {n : Nat} {f g : Nat → Nat} (h : ∀ i, i < n → f i ≤ g i) :
    sumTo n f ≤ sumTo n g := by
  induction n with
  | zero => exact Nat.le_refl _
  | succ n ih =>
    simp only [sumTo]
    have h1 := ih (fun i hi => h i (Nat.lt_succ_of_lt hi))
    have h2 := h n (Nat.lt_succ_self n)
    omega

theorem sumTo_const (n c : Nat) : sumTo n (fun _ => c) = n * c := by
  induction n with
  | zero => simp [sumTo]
  | succ n ih => simp only [sumTo]; rw [ih, Nat.succ_mul]

theorem sumTo_add (n : Nat) (f g : Nat → Nat) :
    sumTo n (fun i => f i + g i) = sumTo n f + sumTo n g := by
  induction n with
  | zero => rfl
  | succ n ih => simp only [sumTo]; rw [ih]; omega

theorem sumTo_term_le {n : Nat} {f : Nat → Nat} {i : Nat} (hi : i < n) :
    f i ≤ sumTo n f := by
  induction n with
  | zero => omega
  | succ n ih =>
    simp only [sumTo]
    rcases Nat.lt_succ_iff_lt_or_eq.mp hi with h | h
    · have := ih h; omega
    · subst h; omega

/-! ## Scoring: proofs -/

theorem countEq_succ (buf : Nat → Int) (v : Int) (n : Nat) :
    countEq buf v (n + 1) = countEq buf v n + (if buf n = v then 1 else 0) := rfl

theorem countEq_eq_zero (buf : Nat → Int) (v : Int) (n : Nat) (h : ∀ i, i < n → buf i ≠ v) :
    countEq buf v n = 0 :=
  sumTo_eq_zero (fun i hi => if_neg (h i hi))

theorem scanLoop_spec (buf : Nat → Int) (j : Nat) (hpos : ∀ i, i < j + 1 → 1 ≤ buf i) :
    (∃ i, i < j + 1 ∧ buf i = (scanLoop buf (j + 1)).1) ∧
    (∀ i, i < j + 1 → buf i ≤ (scanLoop buf (j + 1)).1) ∧
    (scanLoop buf (j + 1)).2 = (countEq buf (scanLoop buf (j + 1)).1 (j + 1) : Int) := by
  induction j with
  | zero =>
    have h0 := hpos 0 (by omega)
    have hs : scanLoop buf 1 = (buf 0, 1) := by
      simp only [scanLoop, scanBody]
      rw [if_pos (by omega)]
    rw [hs]
    refine ⟨⟨0, by omega, rfl⟩, ?_, ?_⟩
    · intro i hi
      have : i = 0 := by omega
      subst this; exact le_refl _
    · simp [countEq, sumTo]
  | succ j ih =>
    obtain ⟨⟨w, hw, hweq⟩, hle, hcnt⟩ := ih (fun i hi => hpos i (by omega))
    have hstep : scanLoop buf (j + 1 + 1) = scanBody buf (j + 1) (scanLoop buf (j + 1)) := rfl
    rw [hstep]
    generalize scanLoop buf (j + 1) = mc at hweq hle hcnt
    obtain ⟨mx, c⟩ := mc
    simp only at hweq hle hcnt
    unfold scanBody
    simp only
    by_cases h1 : buf (j + 1) > mx
    · rw [if_pos h1]
      refine ⟨⟨j + 1, by omega, rfl⟩, ?_, ?_⟩
      · intro i hi
        rcases Nat.lt_succ_iff_lt_or_eq.mp hi with h | h
        · have := hle i h; simp only; omega
        · subst h; exact le_refl _
      · rw [countEq_succ, countEq_eq_zero]
        · simp
        · intro i hi
          have := hle i hi
          simp only; omega
    · rw [if_neg h1]
      by_cases h2 : buf (j + 1) = mx
      · rw [if_pos h2]
        refine ⟨⟨w, by omega, hweq⟩, ?_, ?_⟩
        · intro i hi
          rcases Nat.lt_succ_iff_lt_or_eq.mp hi with h | h
          · exact hle i h
          · subst h; simp only; omega
        · rw [countEq_succ, if_pos h2]
          simp only [hcnt]
          push_cast
          ring
      · rw [if_neg h2]
        refine ⟨⟨w, by omega, hweq⟩, ?_, ?_⟩
        · intro i hi
          rcases Nat.lt_succ_iff_lt_or_eq.mp hi with h | h
          · exact hle i h
          · subst h; simp only; omega
        · rw [countEq_succ, if_neg h2]
          simp only [hcnt]
          simp

theorem scoreLoop_buf (players max cnt : Int) (t : Tally) (j i : Nat) :
    (scoreLoop players max cnt t j).buf i =
      if i < j then (if t.buf i = max then Int.tdiv players cnt else 0) else t.buf i := by
  induction j with
  | zero => simp [scoreLoop]
  | succ j ih =>
    have hstep : scoreLoop players max cnt t (j + 1) =
        scoreBody players max cnt (scoreLoop players max cnt t j) j := rfl
    rw [hstep]
    unfold scoreBody
    by_cases hij : i = j
    · subst hij
      have ihj : (scoreLoop players max cnt t i).buf i = t.buf i := by
        rw [ih]; simp
      rw [ihj]
      by_cases hm : t.buf i = max
      · simp [hm]
      · simp [hm]
    · by_cases hm : (scoreLoop players max cnt t j).buf j = max
      · rw [if_pos hm]
        simp only [Function.update_noteq hij]
        rw [ih]
        by_cases hlt : i < j
        · have h1 : i < j + 1 := by omega
          simp only [if_pos hlt, if_pos h1]
        · have h1 : ¬ i < j + 1 := by omega
          simp only [if_neg hlt, if_neg h1]
      · rw [if_neg hm]
        simp only [Function.update_noteq hij]
        rw [ih]
        by_cases hlt : i < j
        · have h1 : i < j + 1 := by omega
          simp only [if_pos hlt, if_pos h1]
        · have h1 : ¬ i < j + 1 := by omega
          simp only [if_neg hlt, if_neg h1]

/-- Claim C1. Round scoring of `server_run`: for `1 ≤ n ≤ 5` players whose published
values are all `≥ 1`, one scoring pass leaves in slot `j` the value `n / cnt`
(truncating) when the original value of the slot is the maximum `M` of the `n`
original values and `0` otherwise, `cnt` being the number of slots whose original
value is `M`; so every slot becomes `1` when all values are equal, and a sole
winner receives `n`. -/
theorem scoringPass_correct (n : Nat) (hn1 : 1 ≤ n) (hn5 : n ≤ MAX_PLAYERS) (t : Tally)
    (hpos : ∀ j, j < n → 1 ≤ t.buf j) (M : Int)
    (hM : ∃ i, i < n ∧ t.buf i = M) (hmax : ∀ i, i < n → t.buf i ≤ M) :
    (∀ j, j < n → (scoringPass n t).buf j =
        if t.buf j = M then Int.tdiv n (countEq t.buf M n) else 0) ∧
    ((∀ i, i < n → t.buf i = M) → ∀ j, j < n → (scoringPass n t).buf j = 1) ∧
    (countEq t.buf M n = 1 → ∀ j, j < n → t.buf j = M → (scoringPass n t).buf j = n) := by
  obtain ⟨k, rfl⟩ : ∃ k, n = k + 1 := ⟨n - 1, by omega⟩
  obtain ⟨⟨w, hw, hweq⟩, hle, hcnt⟩ := scanLoop_spec t.buf k hpos
  obtain ⟨i0, hi0, hi0eq⟩ := hM
  have hMeq : (scanLoop t.buf (k + 1)).1 = M := by
    have h1 := hle i0 hi0
    have h2 := hmax w hw
    omega
  have main : ∀ j, j < k + 1 → (scoringPass (k + 1) t).buf j =
      if t.buf j = M then Int.tdiv ((k + 1 : Nat) : Int) (countEq t.buf M (k + 1)) else 0 := by
    intro j hj
    unfold scoringPass
    rw [scoreLoop_buf, if_pos hj, hcnt, hMeq]
  refine ⟨main, ?_, ?_⟩
  · intro hall j hj
    rw [main j hj, if_pos (hall j hj)]
    have hc : countEq t.buf M (k + 1) = (k + 1) * 1 := by
      unfold countEq
      rw [← sumTo_const (k + 1) 1]
      exact sumTo_congr (fun i hi => if_pos (hall i hi))
    rw [hc, Nat.mul_one, Int.tdiv_eq_ediv (by omega) (by omega)]
    exact Int.ediv_self (by omega)
  · intro hone j hj hjM
    rw [main j hj, if_pos hjM, hone]
    simp

/-- Worked example for C1: four players, values `[7, 7, 3, 7]` become `[1, 1, 0, 1]`. -/
theorem scoringPass_correct_witness :
    (∀ j, j < 4 → (scoringPass 4 ⟨exampleCards, fun _ => 0⟩).buf j =
        if exampleCards j = 7 then Int.tdiv (4 : Nat) (countEq exampleCards 7 4) else 0) ∧
    countEq exampleCards 7 4 = 3 ∧
    (scoringPass 4 ⟨exampleCards, fun _ => 0⟩).buf 0 = 1 ∧
    (scoringPass 4 ⟨exampleCards, fun _ => 0⟩).buf 1 = 1 ∧
    (scoringPass 4 ⟨exampleCards, fun _ => 0⟩).buf 2 = 0 ∧
    (scoringPass 4 ⟨exampleCards, fun _ => 0⟩).buf 3 = 1 :=
  ⟨(scoringPass_correct 4 (by decide) (by decide) ⟨exampleCards, fun _ => 0⟩
      (by decide) 7 (by decide) (by decide)).1,
    by decide, by decide, by decide, by decide, by decide⟩

/-! ## Worker card pool: proofs -/

theorem fillCards_get (g : Nat → Int) (m i : Nat) :
    fillCards g m i = if 1 ≤ i ∧ i ≤ m then (i : Int) else g i := by
  induction m with
  | zero =>
    simp only [fillCards]
    rw [if_neg (by omega)]
  | succ m ih =>
    simp only [fillCards]
    by_cases h : i = m + 1
    · subst h
      rw [Function.update_same, if_pos (by omega)]
    · rw [Function.update_noteq h, ih]
      by_cases h2 : 1 ≤ i ∧ i ≤ m
      · rw [if_pos h2, if_pos (by omega)]
      · rw [if_neg h2, if_neg (by omega)]

/-- A single call: with `remaining = R ≥ 1` the index drawn lies in `1..R`. -/
theorem worker_draw_spec (w : Worker) (r R : Nat) (hR : w.remaining = (R : Int)) (h1 : 1 ≤ R) :
    ∃ i, 1 ≤ i ∧ i ≤ R ∧ (worker_draw w r).1 = w.cards i ∧
      (worker_draw w r).2.cards = Function.update w.cards i (w.cards R) ∧
      (worker_draw w r).2.remaining = ((R - 1 : Nat) : Int) ∧
      (worker_draw w r).2.remaining = w.remaining - 1 := by
  have hmod : Int.tmod (r : Int) w.remaining = ((r % R : Nat) : Int) := by
    rw [hR, Int.tmod_eq_emod (by omega) (by omega)]
    simp
  have hlt : r % R < R := Nat.mod_lt _ (by omega)
  refine ⟨1 + r % R, by omega, by omega, ?_, ?_, ?_, ?_⟩
  · simp only [worker_draw, hmod]
    congr 1
  · simp only [worker_draw, hmod, hR]
    congr 1
  · simp only [worker_draw, hR]
    omega
  · simp only [worker_draw]

theorem drawAll_cons (w : Worker) (r : Nat) (rs : List Nat) :
    drawAll w (r :: rs) =
      ((worker_draw w r).1 :: (drawAll (worker_draw w r).2 rs).1,
       (drawAll (worker_draw w r).2 rs).2) := rfl

theorem drawAll_append (xs ys : List Nat) (w : Worker) :
    drawAll w (xs ++ ys) =
      ((drawAll w xs).1 ++ (drawAll (drawAll w xs).2 ys).1,
       (drawAll (drawAll w xs).2 ys).2) := by
  induction xs generalizing w with
  | nil => simp [drawAll]
  | cons x xs ih =>
    simp only [List.cons_append, drawAll_cons, ih]

theorem drawAll_length (rs : List Nat) (w : Worker) :
    (drawAll w rs).1.length = rs.length := by
  induction rs generalizing w with
  | nil => simp [drawAll]
  | cons r rs ih => simp [drawAll_cons, ih]

theorem drawAll_remaining (rs : List Nat) (w : Worker) :
    (drawAll w rs).2.remaining = w.remaining - (rs.length : Int) := by
  induction rs generalizing w with
  | nil => simp [drawAll]
  | cons r rs ih =>
    simp only [drawAll_cons, ih, List.length_cons]
    simp only [worker_draw]
    push_cast
    omega

/-- The draws from a pool whose `R` slots hold pairwise distinct values return
exactly those values, each once. -/
theorem drawAll_pool (rs : List Nat) : ∀ (w : Worker) (R : Nat),
    w.remaining = (R : Int) → rs.length = R →
    (∀ i j, 1 ≤ i → i ≤ R → 1 ≤ j → j ≤ R → w.cards i = w.cards j → i = j) →
    (drawAll w rs).1.Nodup ∧
    (∀ v, v ∈ (drawAll w rs).1 ↔ ∃ i, 1 ≤ i ∧ i ≤ R ∧ w.cards i = v) := by
  induction rs with
  | nil =>
    intro w R _ hlen _
    simp only [List.length_nil] at hlen
    subst hlen
    refine ⟨by simp [drawAll], ?_⟩
    intro v
    constructor
    · intro h; simp [drawAll] at h
    · rintro ⟨i, h1, h2, _⟩; omega
  | cons r rs ih =>
    intro w R hR hlen hinj
    simp only [List.length_cons] at hlen
    have hR1 : 1 ≤ R := by omega
    obtain ⟨i, hi1, hiR, hcard, hcards, hrem, _⟩ := worker_draw_spec w r R hR hR1
    have hinj1 : ∀ a b, 1 ≤ a → a ≤ R - 1 → 1 ≤ b → b ≤ R - 1 →
        (worker_draw w r).2.cards a = (worker_draw w r).2.cards b → a = b := by
      intro a b ha1 haR hb1 hbR hab
      rw [hcards] at hab
      by_cases hai : a = i
      · by_cases hbi : b = i
        · omega
        · rw [hai, Function.update_same, Function.update_noteq hbi] at hab
          have := hinj R b (by omega) (by omega) hb1 (by omega) hab
          omega
      · by_cases hbi : b = i
        · rw [hbi, Function.update_same, Function.update_noteq hai] at hab
          have := hinj a R ha1 (by omega) (by omega) (by omega) hab
          omega
        · rw [Function.update_noteq hai, Function.update_noteq hbi] at hab
          exact hinj a b ha1 (by omega) hb1 (by omega) hab
    obtain ⟨hnd, hmem⟩ := ih (worker_draw w r).2 (R - 1) hrem (by omega) hinj1
    rw [drawAll_cons]
    simp only
    refine ⟨?_, ?_⟩
    · rw [List.nodup_cons]
      refine ⟨?_, hnd⟩
      intro hin
      obtain ⟨a, ha1, haR, hav⟩ := (hmem _).mp hin
      rw [hcards, hcard] at hav
      by_cases hai : a = i
      · rw [hai, Function.update_same] at hav
        have := hinj R i (by omega) (by omega) hi1 hiR hav
        omega
      · rw [Function.update_noteq hai] at hav
        exact hai (hinj a i ha1 (by omega) hi1 hiR hav)
    · intro v
      rw [List.mem_cons, hmem v, hcards, hcard]
      constructor
      · rintro (h | ⟨a, ha1, haR, hav⟩)
        · exact ⟨i, hi1, hiR, h.symm⟩
        · by_cases hai : a = i
          · rw [hai, Function.update_same] at hav
            exact ⟨R, by omega, by omega, hav⟩
          · rw [Function.update_noteq hai] at hav
            exact ⟨a, ha1, by omega, hav⟩
      · rintro ⟨j, hj1, hjR, hjv⟩
        by_cases hji : j = i
        · left; rw [← hjv, hji]
        · right
          by_cases hjR2 : j = R
          · refine ⟨i, hi1, by omega, ?_⟩
            rw [Function.update_same, ← hjv, hjR2]
          · refine ⟨j, hj1, by omega, ?_⟩
            rw [Function.update_noteq hji, hjv]

/-- Claim C7. Worker card pool: for a hand size `3 ≤ m ≤ 10` and any `m` outcomes of
`rand()`, the `m` successive calls of `worker_draw` on the `Worker` built by
`worker_new` return `m` pairwise distinct values whose set is exactly `{1,…,m}`;
`remaining` is `m - t` before call number `t` (so it falls by one per call and is
`0` after exactly `m` calls), and that call returns `cards[i]` for an index
`1 ≤ i ≤ remaining` of the pool as it is before the call. -/
theorem worker_draw_pool (m : Nat) (_h3 : 3 ≤ m) (_h10 : m ≤ MAX_CARDS) (rs : List Nat)
    (hlen : rs.length = m) (index : Nat) (garbage : Nat → Int) :
    (drawAll (worker_new index m garbage) rs).1.length = m ∧
    (drawAll (worker_new index m garbage) rs).1.Nodup ∧
    (∀ v : Int, v ∈ (drawAll (worker_new index m garbage) rs).1 ↔ 1 ≤ v ∧ v ≤ (m : Int)) ∧
    (drawAll (worker_new index m garbage) rs).2.remaining = 0 ∧
    (∀ t, t < m →
      (drawAll (worker_new index m garbage) (rs.take t)).2.remaining = (m : Int) - (t : Int) ∧
      (∃ i : Nat, 1 ≤ i ∧
        (i : Int) ≤ (drawAll (worker_new index m garbage) (rs.take t)).2.remaining ∧
        (worker_draw (drawAll (worker_new index m garbage) (rs.take t)).2 (rs.getD t 0)).1 =
          (drawAll (worker_new index m garbage) (rs.take t)).2.cards i) ∧
      (worker_draw (drawAll (worker_new index m garbage) (rs.take t)).2 (rs.getD t 0)).2.remaining =
        (drawAll (worker_new index m garbage) (rs.take t)).2.remaining - 1 ∧
      (drawAll (worker_new index m garbage) rs).1.getD t 0 =
        (worker_draw (drawAll (worker_new index m garbage) (rs.take t)).2 (rs.getD t 0)).1 ∧
      (drawAll (worker_new index m garbage) (rs.take (t + 1))).2 =
        (worker_draw (drawAll (worker_new index m garbage) (rs.take t)).2 (rs.getD t 0)).2) := by
  have hcards : ∀ i, 1 ≤ i → i ≤ m → (worker_new index m garbage).cards i = (i : Int) := by
    intro i h1 h2
    simp only [worker_new, fillCards_get]
    rw [if_pos ⟨h1, h2⟩]
  have hinj : ∀ i j, 1 ≤ i → i ≤ m → 1 ≤ j → j ≤ m →
      (worker_new index m garbage).cards i = (worker_new index m garbage).cards j → i = j := by
    intro i j hi1 him hj1 hjm h
    rw [hcards i hi1 him, hcards j hj1 hjm] at h
    omega
  obtain ⟨hnd, hmem⟩ := drawAll_pool rs (worker_new index m garbage) m rfl hlen hinj
  refine ⟨by rw [drawAll_length, hlen], hnd, ?_, ?_, ?_⟩
  · intro v
    rw [hmem v]
    constructor
    · rintro ⟨i, h1, h2, h⟩
      rw [hcards i h1 h2] at h
      omega
    · rintro ⟨h1, h2⟩
      refine ⟨v.toNat, by omega, by omega, ?_⟩
      rw [hcards v.toNat (by omega) (by omega)]
      omega
  · rw [drawAll_remaining, hlen]
    simp [worker_new]
  · intro t ht
    have htl : t < rs.length := by omega
    have hrem : (drawAll (worker_new index m garbage) (rs.take t)).2.remaining =
        ((m - t : Nat) : Int) := by
      rw [drawAll_remaining, List.length_take]
      simp only [worker_new]
      omega
    obtain ⟨i, hi1, hiR, hcard, _, _, hdec⟩ :=
      worker_draw_spec (drawAll (worker_new index m garbage) (rs.take t)).2 (rs.getD t 0)
        (m - t) hrem (by omega)
    have hsplit : rs = rs.take t ++ (rs.getD t 0 :: rs.drop (t + 1)) := by
      rw [List.getD_eq_getElem _ _ htl, ← List.drop_eq_getElem_cons htl, List.take_append_drop]
    have htake : rs.take (t + 1) = rs.take t ++ [rs.getD t 0] := by
      rw [List.take_succ]
      simp [List.getD_eq_getElem _ _ htl, List.getElem?_eq_getElem htl]
    refine ⟨by rw [hrem]; omega, ⟨i, hi1, by rw [hrem]; omega, hcard⟩, hdec, ?_, ?_⟩
    · conv_lhs => rw [hsplit]
      rw [drawAll_append]
      simp only
      rw [List.getD_append_right _ _ _ _ (by rw [drawAll_length, List.length_take]; omega)]
      rw [drawAll_length, List.length_take, drawAll_cons]
      have : t - min t rs.length = 0 := by omega
      rw [this]
      rfl
    · rw [htake, drawAll_append]
      rfl

/-- Instance of C7: hand size `3`, `rand()` returning `5, 0, 9`. -/
theorem worker_draw_pool_witness :
    (3 ≤ 3 ∧ 3 ≤ MAX_CARDS ∧ [5, 0, 9].length = 3) ∧
    (drawAll (worker_new 0 3 (fun _ => 0)) [5, 0, 9]).1.Nodup ∧
    (∀ v : Int, v ∈ (drawAll (worker_new 0 3 (fun _ => 0)) [5, 0, 9]).1 ↔
      1 ≤ v ∧ v ≤ ((3 : Nat) : Int)) ∧
    (drawAll (worker_new 0 3 (fun _ => 0)) [5, 0, 9]).1 = [3, 1, 2] :=
  ⟨⟨by decide, by decide, by decide⟩,
   (worker_draw_pool 3 (by decide) (by decide) [5, 0, 9] (by decide) 0 (fun _ => 0)).2.1,
   (worker_draw_pool 3 (by decide) (by decide) [5, 0, 9] (by decide) 0 (fun _ => 0)).2.2.1,
   by decide⟩

/-! ## Sums over processes -/

theorem sumTo_update (n : Nat) (f : Ctl → Nat) (ctl : Nat → Ctl) (p : Nat) (hp : p < n)
    (c : Ctl) :
    sumTo n (fun q => f (Function.update ctl p c q)) + f (ctl p) =
      sumTo n (fun q => f (ctl q)) + f c := by
  induction n with
  | zero => omega
  | succ n ih =>
    simp only [sumTo]
    by_cases h : p = n
    · subst h
      rw [Function.update_same]
      have : sumTo p (fun q => f (Function.update ctl p c q)) = sumTo p (fun q => f (ctl q)) :=
        sumTo_congr (fun i hi => by rw [Function.update_noteq (by omega)])
      omega
    · have := ih (by omega)
      rw [Function.update_noteq (fun h2 => h h2.symm)]
      omega

theorem sumTo_le_self (n : Nat) (f : Nat → Nat) (h : ∀ i, i < n → f i ≤ 1) : sumTo n f ≤ n := by
  have := sumTo_le_of_le (f := f) (g := fun _ => 1) h
  rw [sumTo_const] at this
  omega

theorem sumTo_all_one (n : Nat) (f : Nat → Nat) (h : ∀ i, i < n → f i ≤ 1)
    (hs : sumTo n f = n) : ∀ i, i < n → f i = 1 := by
  induction n with
  | zero => intro i hi; omega
  | succ n ih =>
    simp only [sumTo] at hs
    have h1 := sumTo_le_self n f (fun i hi => h i (by omega))
    have h2 := h n (by omega)
    intro i hi
    rcases Nat.lt_succ_iff_lt_or_eq.mp hi with h3 | h3
    · exact ih (fun i hi => h i (by omega)) (by omega) i h3
    · subst h3; omega

theorem sumTo_le_mul (n k : Nat) (f h : Nat → Nat) (hle : ∀ i, i < n → f i ≤ k * h i) :
    sumTo n f ≤ k * sumTo n h := by
  induction n with
  | zero => simp [sumTo]
  | succ n ih =>
    simp only [sumTo]
    have h1 := ih (fun i hi => hle i (by omega))
    have h2 := hle n (by omega)
    rw [Nat.mul_add]
    omega

theorem wsum_update (k : Nat) (ctl : Nat → Ctl) (p : Nat) (hp : p < k) (c : Ctl)
    (w : JPc → Nat) :
    wsum k (Function.update ctl p c) w + w (ctl p).pc = wsum k ctl w + w c.pc :=
  sumTo_update k (fun c => w c.pc) ctl p hp c

theorem weight_bounds (k : Nat) (pc : JPc) :
    is1 pc + is2 pc + is3 pc ≤ 1 ∧ hold pc ≤ 1 ∧
    tw1 k pc ≤ k * hold pc ∧ pw1 k pc ≤ k * is1 pc ∧
    tw2 k pc ≤ k * hold pc ∧ pw2 k pc ≤ k * is3 pc ∧
    (is1 pc = 1 ↔ stage pc = 1) ∧ (is2 pc = 1 ↔ stage pc = 2) ∧ (is3 pc = 1 ↔ stage pc = 3) ∧
    stage pc ≤ 3 := by
  cases pc <;> simp

theorem hold_split (pc : JPc) : hE pc + h2 pc = hold pc := by
  cases pc <;> rfl

theorem wsum_hold_split (k : Nat) (ctl : Nat → Ctl) :
    wsum k ctl hE + wsum k ctl h2 = wsum k ctl hold := by
  unfold wsum
  rw [← sumTo_add]
  exact sumTo_congr (fun i _ => hold_split (ctl i).pc)

theorem wsum_stage_le (k : Nat) (ctl : Nat → Ctl) :
    wsum k ctl is1 + wsum k ctl is2 + wsum k ctl is3 ≤ k := by
  unfold wsum
  rw [← sumTo_add, ← sumTo_add]
  exact sumTo_le_self k _ (fun i _ => (weight_bounds 0 (ctl i).pc).1)

theorem wsum_zero (k : Nat) (ctl : Nat → Ctl) (w : JPc → Nat) (h : wsum k ctl w = 0) :
    ∀ q, q < k → w (ctl q).pc = 0 := by
  intro q hq
  have := sumTo_term_le (f := fun q => w (ctl q).pc) hq
  unfold wsum at h
  simp only at this
  omega

theorem wsum_full (k : Nat) (ctl : Nat → Ctl) (w : JPc → Nat)
    (h : ∀ q, q < k → w (ctl q).pc = 1) : wsum k ctl w = k := by
  unfold wsum
  rw [sumTo_congr (g := fun _ => 1) h, sumTo_const, Nat.mul_one]

theorem wsum_is1_full (k : Nat) (ctl : Nat → Ctl) (h : wsum k ctl is1 = k) :
    ∀ q, q < k → stage (ctl q).pc = 1 := by
  intro q hq
  have := sumTo_all_one k (fun q => is1 (ctl q).pc)
    (fun i _ => by
      show is1 (ctl i).pc ≤ 1
      have := (weight_bounds 0 (ctl i).pc).1; omega) h q hq
  exact (weight_bounds 0 (ctl q).pc).2.2.2.2.2.2.1.mp this

theorem wsum_is3_full (k : Nat) (ctl : Nat → Ctl) (h : wsum k ctl is3 = k) :
    ∀ q, q < k → stage (ctl q).pc = 3 := by
  intro q hq
  have := sumTo_all_one k (fun q => is3 (ctl q).pc)
    (fun i _ => by
      show is3 (ctl i).pc ≤ 1
      have := (weight_bounds 0 (ctl i).pc).1; omega) h q hq
  exact (weight_bounds 0 (ctl q).pc).2.2.2.2.2.2.2.2.1.mp this

theorem wsum_le_of_hold (k : Nat) (ctl : Nat → Ctl) (w : JPc → Nat)
    (hw : ∀ pc, w pc ≤ k * hold pc) (h : wsum k ctl hold ≤ 1) : wsum k ctl w ≤ k := by
  have h1 := sumTo_le_mul k k (fun q => w (ctl q).pc) (fun q => hold (ctl q).pc)
    (fun i _ => hw (ctl i).pc)
  have h2 : k * sumTo k (fun q => hold (ctl q).pc) ≤ k * 1 := Nat.mul_le_mul_left k h
  unfold wsum
  omega

theorem wsum_zero_of_zero (k : Nat) (ctl : Nat → Ctl) (w v : JPc → Nat)
    (hw : ∀ pc, w pc ≤ k * v pc) (h : wsum k ctl v = 0) : wsum k ctl w = 0 := by
  have h1 := sumTo_le_mul k k (fun q => w (ctl q).pc) (fun q => v (ctl q).pc)
    (fun i _ => hw (ctl i).pc)
  unfold wsum at h ⊢
  rw [h] at h1
  omega

theorem wsum_term_le (k : Nat) (ctl : Nat → Ctl) (w : JPc → Nat) (q : Nat) (hq : q < k) :
    w (ctl q).pc ≤ wsum k ctl w :=
  sumTo_term_le (f := fun q => w (ctl q).pc) hq

theorem forall_update (k : Nat) (ctl : Nat → Ctl) (p : Nat) (c : Ctl) (P : Ctl → Prop)
    (h : ∀ q, q < k → P (ctl q)) (hc : P c) : ∀ q, q < k → P (Function.update ctl p c q) := by
  intro q hq
  by_cases hqp : q = p
  · subst hqp; rw [Function.update_same]; exact hc
  · rw [Function.update_noteq hqp]; exact h q hq

/-! ## The barrier invariant is inductive -/

theorem BInv_step (k : Nat) (hk : 1 ≤ k) (s : BSys) (p : Nat) (hp : p < k) (b : Barrier)
    (c : Ctl) (hinv : BInv k s) (hstep : br_join_step s.bar (s.ctl p) = some (b, c)) :
    BInv k { bar := b, ctl := Function.update s.ctl p c } := by
  obtain ⟨hstr, hmtx, g, hph⟩ := hinv
  have e0 := wsum_update k s.ctl p hp c hold
  have e1 := wsum_update k s.ctl p hp c is1
  have e2 := wsum_update k s.ctl p hp c is2
  have e3 := wsum_update k s.ctl p hp c is3
  have e4 := wsum_update k s.ctl p hp c (tw1 k)
  have e5 := wsum_update k s.ctl p hp c (pw1 k)
  have e6 := wsum_update k s.ctl p hp c (tw2 k)
  have e7 := wsum_update k s.ctl p hp c (pw2 k)
  have e8 := wsum_update k s.ctl p hp c h2
  have e9 := wsum_update k s.ctl p hp c hE
  have tE := wsum_term_le k s.ctl hE p hp
  have hsp := wsum_hold_split k s.ctl
  have hsp1 := wsum_hold_split k (Function.update s.ctl p c)
  have hst := wsum_stage_le k s.ctl
  have hst1 := wsum_stage_le k (Function.update s.ctl p c)
  unfold br_join_step at hstep
  cases hpc : (s.ctl p).pc <;> rw [hpc] at hstep <;> simp only [] at hstep
  case out => simp at hstep
  case lock1 =>
    split at hstep
    · simp only [Option.some.injEq, Prod.mk.injEq] at hstep
      obtain ⟨rfl, rfl⟩ := hstep
      simp only [hpc, hold, is1, is2, is3, tw1, pw1, tw2, pw2, h2, hE] at e0 e1 e2 e3 e4 e5 e6 e7 e8 e9 tE
      rcases hph with hU | hD
      · obtain ⟨hloc, hcnt, hlt, hpre, hnp, hpost, hex⟩ := hU
        have hl := hloc p hp
        unfold locU at hl
        have hs := congrArg stage hpc
        conv at hs => rhs; simp only [stage]
        refine ⟨hstr, ?_, g, Or.inl ⟨forall_update k s.ctl p _ (locU g) hloc ?_, ?_, ?_, ?_, ?_, ?_, ?_⟩⟩
        all_goals (try simp only [locU, stage, and_true])
        all_goals omega
      · obtain ⟨hloc, hcnt, hpos, hpost, hnp, hpre⟩ := hD
        have hl := hloc p hp
        unfold locD at hl
        have hs := congrArg stage hpc
        conv at hs => rhs; simp only [stage]
        refine ⟨hstr, ?_, g, Or.inr ⟨forall_update k s.ctl p _ (locD g) hloc ?_, ?_, ?_, ?_, ?_, ?_⟩⟩
        all_goals (try simp only [locD, stage])
        all_goals omega
    · simp at hstep
  case wait1 =>
    split at hstep
    · simp only [Option.some.injEq, Prod.mk.injEq] at hstep
      obtain ⟨rfl, rfl⟩ := hstep
      simp only [hpc, hold, is1, is2, is3, tw1, pw1, tw2, pw2, h2, hE] at e0 e1 e2 e3 e4 e5 e6 e7 e8 e9 tE
      rcases hph with hU | hD
      · obtain ⟨hloc, hcnt, hlt, hpre, hnp, hpost, hex⟩ := hU
        have hl := hloc p hp
        unfold locU at hl
        have hs := congrArg stage hpc
        conv at hs => rhs; simp only [stage]
        refine ⟨hstr, ?_, g, Or.inl ⟨forall_update k s.ctl p _ (locU g) hloc ?_, ?_, ?_, ?_, ?_, ?_, ?_⟩⟩
        all_goals (try simp only [locU, stage, and_true])
        all_goals omega
      · obtain ⟨hloc, hcnt, hpos, hpost, hnp, hpre⟩ := hD
        have hl := hloc p hp
        unfold locD at hl
        have hs := congrArg stage hpc
        conv at hs => rhs; simp only [stage]
        refine ⟨hstr, ?_, g, Or.inr ⟨forall_update k s.ctl p _ (locD g) hloc ?_, ?_, ?_, ?_, ?_, ?_⟩⟩
        all_goals (try simp only [locD, stage])
        all_goals omega
    · simp at hstep
  case lock2 =>
    split at hstep
    · simp only [Option.some.injEq, Prod.mk.injEq] at hstep
      obtain ⟨rfl, rfl⟩ := hstep
      simp only [hpc, hold, is1, is2, is3, tw1, pw1, tw2, pw2, h2, hE] at e0 e1 e2 e3 e4 e5 e6 e7 e8 e9 tE
      rcases hph with hU | hD
      · obtain ⟨hloc, hcnt, hlt, hpre, hnp, hpost, hex⟩ := hU
        have hl := hloc p hp
        unfold locU at hl
        have hs := congrArg stage hpc
        conv at hs => rhs; simp only [stage]
        refine ⟨hstr, ?_, g, Or.inl ⟨forall_update k s.ctl p _ (locU g) hloc ?_, ?_, ?_, ?_, ?_, ?_, ?_⟩⟩
        all_goals (try simp only [locU, stage, and_true])
        all_goals omega
      · obtain ⟨hloc, hcnt, hpos, hpost, hnp, hpre⟩ := hD
        have hl := hloc p hp
        unfold locD at hl
        have hs := congrArg stage hpc
        conv at hs => rhs; simp only [stage]
        refine ⟨hstr, ?_, g, Or.inr ⟨forall_update k s.ctl p _ (locD g) hloc ?_, ?_, ?_, ?_, ?_, ?_⟩⟩
        all_goals (try simp only [locD, stage])
        all_goals omega
    · simp at hstep
  case wait2 =>
    split at hstep
    · simp only [Option.some.injEq, Prod.mk.injEq] at hstep
      obtain ⟨rfl, rfl⟩ := hstep
      simp only [hpc, hold, is1, is2, is3, tw1, pw1, tw2, pw2, h2, hE] at e0 e1 e2 e3 e4 e5 e6 e7 e8 e9 tE
      rcases hph with hU | hD
      · obtain ⟨hloc, hcnt, hlt, hpre, hnp, hpost, hex⟩ := hU
        have hl := hloc p hp
        unfold locU at hl
        have hs := congrArg stage hpc
        conv at hs => rhs; simp only [stage]
        refine ⟨hstr, ?_, g, Or.inl ⟨forall_update k s.ctl p _ (locU g) hloc ?_, ?_, ?_, ?_, ?_, ?_, ?_⟩⟩
        all_goals (try simp only [locU, stage, and_true])
        all_goals omega
      · obtain ⟨hloc, hcnt, hpos, hpost, hnp, hpre⟩ := hD
        have hl := hloc p hp
        unfold locD at hl
        have hs := congrArg stage hpc
        conv at hs => rhs; simp only [stage]
        refine ⟨hstr, ?_, g, Or.inr ⟨forall_update k s.ctl p _ (locD g) hloc ?_, ?_, ?_, ?_, ?_, ?_⟩⟩
        all_goals (try simp only [locD, stage])
        all_goals omega
    · simp at hstep
  case unlock1 =>
    simp only [Option.some.injEq, Prod.mk.injEq] at hstep
    obtain ⟨rfl, rfl⟩ := hstep
    simp only [hpc, hold, is1, is2, is3, tw1, pw1, tw2, pw2, h2, hE] at e0 e1 e2 e3 e4 e5 e6 e7 e8 e9 tE
    rcases hph with hU | hD
    · obtain ⟨hloc, hcnt, hlt, hpre, hnp, hpost, hex⟩ := hU
      have hl := hloc p hp
      unfold locU at hl
      have hs := congrArg stage hpc
      conv at hs => rhs; simp only [stage]
      refine ⟨hstr, ?_, g, Or.inl ⟨forall_update k s.ctl p _ (locU g) hloc ?_, ?_, ?_, ?_, ?_, ?_, ?_⟩⟩
      all_goals (try simp only [locU, stage, and_true])
      all_goals omega
    · obtain ⟨hloc, hcnt, hpos, hpost, hnp, hpre⟩ := hD
      have hl := hloc p hp
      unfold locD at hl
      have hs := congrArg stage hpc
      conv at hs => rhs; simp only [stage]
      refine ⟨hstr, ?_, g, Or.inr ⟨forall_update k s.ctl p _ (locD g) hloc ?_, ?_, ?_, ?_, ?_, ?_⟩⟩
      all_goals (try simp only [locD, stage])
      all_goals omega
  case unlock2 =>
    simp only [Option.some.injEq, Prod.mk.injEq] at hstep
    obtain ⟨rfl, rfl⟩ := hstep
    simp only [hpc, hold, is1, is2, is3, tw1, pw1, tw2, pw2, h2, hE] at e0 e1 e2 e3 e4 e5 e6 e7 e8 e9 tE
    rcases hph with hU | hD
    · obtain ⟨hloc, hcnt, hlt, hpre, hnp, hpost, hex⟩ := hU
      have hl := hloc p hp
      unfold locU at hl
      have hs := congrArg stage hpc
      conv at hs => rhs; simp only [stage]
      refine ⟨hstr, ?_, g, Or.inl ⟨forall_update k s.ctl p _ (locU g) hloc ?_, ?_, ?_, ?_, ?_, ?_, ?_⟩⟩
      all_goals (try simp only [locU, stage, and_true])
      all_goals omega
    · obtain ⟨hloc, hcnt, hpos, hpost, hnp, hpre⟩ := hD
      have hl := hloc p hp
      unfold locD at hl
      have hs := congrArg stage hpc
      conv at hs => rhs; simp only [stage]
      refine ⟨hstr, ?_, g, Or.inr ⟨forall_update k s.ctl p _ (locD g) hloc ?_, ?_, ?_, ?_, ?_, ?_⟩⟩
      all_goals (try simp only [locD, stage])
      all_goals omega
  case test1 =>
    split at hstep
    · simp only [Option.some.injEq, Prod.mk.injEq] at hstep
      obtain ⟨rfl, rfl⟩ := hstep
      simp only [hpc, hold, is1, is2, is3, tw1, pw1, tw2, pw2, h2, hE] at e0 e1 e2 e3 e4 e5 e6 e7 e8 e9 tE
      rcases hph with hU | hD
      · obtain ⟨hloc, hcnt, hlt, hpre, hnp, hpost, hex⟩ := hU
        have hl := hloc p hp
        unfold locU at hl
        have hs := congrArg stage hpc
        conv at hs => rhs; simp only [stage]
        refine ⟨hstr, ?_, g, Or.inl ⟨forall_update k s.ctl p _ (locU g) hloc ?_, ?_, ?_, ?_, ?_, ?_, ?_⟩⟩
        all_goals (try simp only [locU, stage, and_true])
        all_goals omega
      · obtain ⟨hloc, hcnt, hpos, hpost, hnp, hpre⟩ := hD
        have hl := hloc p hp
        unfold locD at hl
        have hs := congrArg stage hpc
        conv at hs => rhs; simp only [stage]
        refine ⟨hstr, ?_, g, Or.inr ⟨forall_update k s.ctl p _ (locD g) hloc ?_, ?_, ?_, ?_, ?_, ?_⟩⟩
        all_goals (try simp only [locD, stage])
        all_goals omega
    · simp only [Option.some.injEq, Prod.mk.injEq] at hstep
      obtain ⟨rfl, rfl⟩ := hstep
      simp only [hpc, hold, is1, is2, is3, tw1, pw1, tw2, pw2, h2, hE] at e0 e1 e2 e3 e4 e5 e6 e7 e8 e9 tE
      rcases hph with hU | hD
      · obtain ⟨hloc, hcnt, hlt, hpre, hnp, hpost, hex⟩ := hU
        have hl := hloc p hp
        unfold locU at hl
        have hs := congrArg stage hpc
        conv at hs => rhs; simp only [stage]
        refine ⟨hstr, ?_, g, Or.inl ⟨forall_update k s.ctl p _ (locU g) hloc ?_, ?_, ?_, ?_, ?_, ?_, ?_⟩⟩
        all_goals (try simp only [locU, stage, and_true])
        all_goals omega
      · obtain ⟨hloc, hcnt, hpos, hpost, hnp, hpre⟩ := hD
        have hl := hloc p hp
        unfold locD at hl
        have hs := congrArg stage hpc
        conv at hs => rhs; simp only [stage]
        refine ⟨hstr, ?_, g, Or.inr ⟨forall_update k s.ctl p _ (locD g) hloc ?_, ?_, ?_, ?_, ?_, ?_⟩⟩
        all_goals (try simp only [locD, stage])
        all_goals omega
  case test2 =>
    split at hstep
    · simp only [Option.some.injEq, Prod.mk.injEq] at hstep
      obtain ⟨rfl, rfl⟩ := hstep
      simp only [hpc, hold, is1, is2, is3, tw1, pw1, tw2, pw2, h2, hE] at e0 e1 e2 e3 e4 e5 e6 e7 e8 e9 tE
      rcases hph with hU | hD
      · obtain ⟨hloc, hcnt, hlt, hpre, hnp, hpost, hex⟩ := hU
        have hl := hloc p hp
        unfold locU at hl
        have hs := congrArg stage hpc
        conv at hs => rhs; simp only [stage]
        refine ⟨hstr, ?_, g, Or.inl ⟨forall_update k s.ctl p _ (locU g) hloc ?_, ?_, ?_, ?_, ?_, ?_, ?_⟩⟩
        all_goals (try simp only [locU, stage, and_true])
        all_goals omega
      · obtain ⟨hloc, hcnt, hpos, hpost, hnp, hpre⟩ := hD
        have hl := hloc p hp
        unfold locD at hl
        have hs := congrArg stage hpc
        conv at hs => rhs; simp only [stage]
        refine ⟨hstr, ?_, g, Or.inr ⟨forall_update k s.ctl p _ (locD g) hloc ?_, ?_, ?_, ?_, ?_, ?_⟩⟩
        all_goals (try simp only [locD, stage])
        all_goals omega
    · simp only [Option.some.injEq, Prod.mk.injEq] at hstep
      obtain ⟨rfl, rfl⟩ := hstep
      simp only [hpc, hold, is1, is2, is3, tw1, pw1, tw2, pw2, h2, hE] at e0 e1 e2 e3 e4 e5 e6 e7 e8 e9 tE
      rcases hph with hU | hD
      · obtain ⟨hloc, hcnt, hlt, hpre, hnp, hpost, hex⟩ := hU
        have hl := hloc p hp
        unfold locU at hl
        have hs := congrArg stage hpc
        conv at hs => rhs; simp only [stage]
        refine ⟨hstr, ?_, g, Or.inl ⟨forall_update k s.ctl p _ (locU g) hloc ?_, ?_, ?_, ?_, ?_, ?_, ?_⟩⟩
        all_goals (try simp only [locU, stage, and_true])
        all_goals omega
      · obtain ⟨hloc, hcnt, hpos, hpost, hnp, hpre⟩ := hD
        have hl := hloc p hp
        unfold locD at hl
        have hs := congrArg stage hpc
        conv at hs => rhs; simp only [stage]
        refine ⟨hstr, ?_, g, Or.inr ⟨forall_update k s.ctl p _ (locD g) hloc ?_, ?_, ?_, ?_, ?_, ?_⟩⟩
        all_goals (try simp only [locD, stage])
        all_goals omega
  case post1 i =>
    split at hstep
    · simp only [Option.some.injEq, Prod.mk.injEq] at hstep
      obtain ⟨rfl, rfl⟩ := hstep
      simp only [hpc, hold, is1, is2, is3, tw1, pw1, tw2, pw2, h2, hE] at e0 e1 e2 e3 e4 e5 e6 e7 e8 e9 tE
      rcases hph with hU | hD
      · obtain ⟨hloc, hcnt, hlt, hpre, hnp, hpost, hex⟩ := hU
        have hl := hloc p hp
        unfold locU at hl
        have hs := congrArg stage hpc
        conv at hs => rhs; simp only [stage]
        refine ⟨hstr, ?_, g, Or.inl ⟨forall_update k s.ctl p _ (locU g) hloc ?_, ?_, ?_, ?_, ?_, ?_, ?_⟩⟩
        all_goals (try simp only [locU, stage, and_true])
        all_goals omega
      · obtain ⟨hloc, hcnt, hpos, hpost, hnp, hpre⟩ := hD
        have hl := hloc p hp
        unfold locD at hl
        have hs := congrArg stage hpc
        conv at hs => rhs; simp only [stage]
        refine ⟨hstr, ?_, g, Or.inr ⟨forall_update k s.ctl p _ (locD g) hloc ?_, ?_, ?_, ?_, ?_, ?_⟩⟩
        all_goals (try simp only [locD, stage])
        all_goals omega
    · simp only [Option.some.injEq, Prod.mk.injEq] at hstep
      obtain ⟨rfl, rfl⟩ := hstep
      simp only [hpc, hold, is1, is2, is3, tw1, pw1, tw2, pw2, h2, hE] at e0 e1 e2 e3 e4 e5 e6 e7 e8 e9 tE
      rcases hph with hU | hD
      · obtain ⟨hloc, hcnt, hlt, hpre, hnp, hpost, hex⟩ := hU
        have hl := hloc p hp
        unfold locU at hl
        have hs := congrArg stage hpc
        conv at hs => rhs; simp only [stage]
        refine ⟨hstr, ?_, g, Or.inl ⟨forall_update k s.ctl p _ (locU g) hloc ?_, ?_, ?_, ?_, ?_, ?_, ?_⟩⟩
        all_goals (try simp only [locU, stage, and_true])
        all_goals omega
      · obtain ⟨hloc, hcnt, hpos, hpost, hnp, hpre⟩ := hD
        have hl := hloc p hp
        unfold locD at hl
        have hs := congrArg stage hpc
        conv at hs => rhs; simp only [stage]
        refine ⟨hstr, ?_, g, Or.inr ⟨forall_update k s.ctl p _ (locD g) hloc ?_, ?_, ?_, ?_, ?_, ?_⟩⟩
        all_goals (try simp only [locD, stage])
        all_goals omega
  case post2 i =>
    split at hstep
    · simp only [Option.some.injEq, Prod.mk.injEq] at hstep
      obtain ⟨rfl, rfl⟩ := hstep
      simp only [hpc, hold, is1, is2, is3, tw1, pw1, tw2, pw2, h2, hE] at e0 e1 e2 e3 e4 e5 e6 e7 e8 e9 tE
      rcases hph with hU | hD
      · obtain ⟨hloc, hcnt, hlt, hpre, hnp, hpost, hex⟩ := hU
        have hl := hloc p hp
        unfold locU at hl
        have hs := congrArg stage hpc
        conv at hs => rhs; simp only [stage]
        refine ⟨hstr, ?_, g, Or.inl ⟨forall_update k s.ctl p _ (locU g) hloc ?_, ?_, ?_, ?_, ?_, ?_, ?_⟩⟩
        all_goals (try simp only [locU, stage, and_true])
        all_goals omega
      · obtain ⟨hloc, hcnt, hpos, hpost, hnp, hpre⟩ := hD
        have hl := hloc p hp
        unfold locD at hl
        have hs := congrArg stage hpc
        conv at hs => rhs; simp only [stage]
        refine ⟨hstr, ?_, g, Or.inr ⟨forall_update k s.ctl p _ (locD g) hloc ?_, ?_, ?_, ?_, ?_, ?_⟩⟩
        all_goals (try simp only [locD, stage])
        all_goals omega
    · simp only [Option.some.injEq, Prod.mk.injEq] at hstep
      obtain ⟨rfl, rfl⟩ := hstep
      simp only [hpc, hold, is1, is2, is3, tw1, pw1, tw2, pw2, h2, hE] at e0 e1 e2 e3 e4 e5 e6 e7 e8 e9 tE
      rcases hph with hU | hD
      · obtain ⟨hloc, hcnt, hlt, hpre, hnp, hpost, hex⟩ := hU
        have hl := hloc p hp
        unfold locU at hl
        have hs := congrArg stage hpc
        conv at hs => rhs; simp only [stage]
        refine ⟨hstr, ?_, g, Or.inl ⟨forall_update k s.ctl p _ (locU g) hloc ?_, ?_, ?_, ?_, ?_, ?_, ?_⟩⟩
        all_goals (try simp only [locU, stage, and_true])
        all_goals omega
      · obtain ⟨hloc, hcnt, hpos, hpost, hnp, hpre⟩ := hD
        have hl := hloc p hp
        unfold locD at hl
        have hs := congrArg stage hpc
        conv at hs => rhs; simp only [stage]
        refine ⟨hstr, ?_, g, Or.inr ⟨forall_update k s.ctl p _ (locD g) hloc ?_, ?_, ?_, ?_, ?_, ?_⟩⟩
        all_goals (try simp only [locD, stage])
        all_goals omega
  case inc =>
    simp only [Option.some.injEq, Prod.mk.injEq] at hstep
    obtain ⟨rfl, rfl⟩ := hstep
    simp only [hpc, hold, is1, is2, is3, tw1, pw1, tw2, pw2, h2, hE] at e0 e1 e2 e3 e4 e5 e6 e7 e8 e9 tE
    rcases hph with hU | hD
    · obtain ⟨hloc, hcnt, hlt, hpre, hnp, hpost, hex⟩ := hU
      have hl := hloc p hp
      unfold locU at hl
      have hs := congrArg stage hpc
      conv at hs => rhs; simp only [stage]
      by_cases hfull : s.bar.count + 1 < (k : Int)
      · refine ⟨hstr, ?_, g, Or.inl ⟨forall_update k s.ctl p _ (locU g) hloc ?_, ?_, ?_, ?_, ?_, ?_, ?_⟩⟩
        all_goals (try simp only [locU, stage, and_true])
        all_goals omega
      · have hfullsum : wsum k (Function.update s.ctl p { gen := (s.ctl p).gen, pc := JPc.test1 }) is1 = k := by
          omega
        have hall := wsum_is1_full k _ hfullsum
        have hloc1 := forall_update k s.ctl p { gen := (s.ctl p).gen, pc := JPc.test1 } (locU g) hloc
          (by simp only [locU, stage, and_true]; omega)
        have hh := wsum_le_of_hold k (Function.update s.ctl p { gen := (s.ctl p).gen, pc := JPc.test1 })
          (tw1 k) (fun pc => (weight_bounds k pc).2.2.1) (by omega)
        refine ⟨hstr, ?_, g, Or.inr ⟨?_, ?_, ?_, ?_, ?_, ?_⟩⟩
        · simp only []; omega
        · intro q hq
          have h1 := hall q hq
          have h2 := hloc1 q hq
          unfold locU at h2
          unfold locD
          simp only [] at h1 ⊢
          omega
        all_goals (simp only []; omega)
    · obtain ⟨hloc, hcnt, hpos, hpost, hnp, hpre⟩ := hD
      have hl := hloc p hp
      unfold locD at hl
      have hs := congrArg stage hpc
      conv at hs => rhs; simp only [stage]
      exfalso; omega
  case dec =>
    simp only [Option.some.injEq, Prod.mk.injEq] at hstep
    obtain ⟨rfl, rfl⟩ := hstep
    simp only [hpc, hold, is1, is2, is3, tw1, pw1, tw2, pw2, h2, hE] at e0 e1 e2 e3 e4 e5 e6 e7 e8 e9 tE
    rcases hph with hU | hD
    · obtain ⟨hloc, hcnt, hlt, hpre, hnp, hpost, hex⟩ := hU
      have hl := hloc p hp
      unfold locU at hl
      have hs := congrArg stage hpc
      conv at hs => rhs; simp only [stage]
      exfalso; omega
    · obtain ⟨hloc, hcnt, hpos, hpost, hnp, hpre⟩ := hD
      have hl := hloc p hp
      unfold locD at hl
      have hs := congrArg stage hpc
      conv at hs => rhs; simp only [stage]
      by_cases hz : 0 < s.bar.count - 1
      · refine ⟨hstr, ?_, g, Or.inr ⟨forall_update k s.ctl p _ (locD g) hloc ?_, ?_, ?_, ?_, ?_, ?_⟩⟩
        all_goals (try simp only [locD, stage])
        all_goals omega
      · have hz1 : wsum k (Function.update s.ctl p { gen := (s.ctl p).gen, pc := JPc.test2 }) is1 = 0 := by
          omega
        have hz2 : wsum k (Function.update s.ctl p { gen := (s.ctl p).gen, pc := JPc.test2 }) is2 = 0 := by
          omega
        have ha1 := wsum_zero k _ is1 hz1
        have ha2 := wsum_zero k _ is2 hz2
        have hloc1 := forall_update k s.ctl p { gen := (s.ctl p).gen, pc := JPc.test2 } (locD g) hloc
          (by simp only [locD, stage]; omega)
        have hst3 : ∀ q, q < k →
            stage (Function.update s.ctl p { gen := (s.ctl p).gen, pc := JPc.test2 } q).pc = 3 := by
          intro q hq
          have h1 := ha1 q hq
          have h2 := ha2 q hq
          have h3 := hloc1 q hq
          have h4 := weight_bounds k (Function.update s.ctl p { gen := (s.ctl p).gen, pc := JPc.test2 } q).pc
          unfold locD at h3
          simp only [] at h1 h2
          omega
        have hfull3 : wsum k (Function.update s.ctl p { gen := (s.ctl p).gen, pc := JPc.test2 }) is3 = k :=
          wsum_full k _ is3 (fun q hq => (weight_bounds k _).2.2.2.2.2.2.2.2.1.mpr (hst3 q hq))
        have hh := wsum_le_of_hold k (Function.update s.ctl p { gen := (s.ctl p).gen, pc := JPc.test2 })
          (tw2 k) (fun pc => (weight_bounds k pc).2.2.2.2.1) (by omega)
        refine ⟨hstr, ?_, g + 1, Or.inl ⟨?_, ?_, ?_, ?_, ?_, ?_, ?_⟩⟩
        · simp only []; omega
        · intro q hq
          have h1 := hst3 q hq
          have h2 := hloc1 q hq
          unfold locD at h2
          unfold locU
          simp only [] at h1 ⊢
          omega
        all_goals (simp only []; omega)

/-! ## `Mutex`: the second `mtx_open` resets a held lock -/

/-- Claim C8, evaluated on the code: process `0` opens the name and locks it, process `1` then
opens the same name and locks it too.  The second `mtx_open` runs `sem_init`
again, which turns the value of the held semaphore from `0` back to `1`, so the
`mtx_lock` of process `1` does not block and both processes hold the lock. -/
theorem mtx_open_resets_held_lock :
    (∃ s, mtxRun mtxInit [.doOpen 0, .doLock 0] = some s ∧ s.value = 0 ∧
      (mtx_open s 1).value = 1) ∧
    (∃ s, mtxRun mtxInit [.doOpen 0, .doLock 0, .doOpen 1, .doLock 1] = some s ∧
      s.holds 0 = true ∧ s.holds 1 = true) :=
  ⟨⟨_, rfl, rfl, rfl⟩, ⟨_, rfl, rfl, rfl⟩⟩

/-! ## The barrier: reachable states and the claims -/

theorem wsum_out (k : Nat) (ctl : Nat → Ctl) (w : JPc → Nat) (hw : w .out = 0)
    (h : ∀ q, q < k → (ctl q).pc = .out) : wsum k ctl w = 0 :=
  sumTo_eq_zero (fun q hq => by rw [h q hq]; exact hw)

theorem wsum_eq_zero_of (k : Nat) (ctl : Nat → Ctl) (w : JPc → Nat)
    (h : ∀ q, q < k → w (ctl q).pc = 0) : wsum k ctl w = 0 :=
  sumTo_eq_zero h

theorem BInv_init (k : Nat) (hk : 1 ≤ k) : BInv k (loopInit k) := by
  have hz : ∀ w : JPc → Nat, w .out = 0 → wsum k (loopInit k).ctl w = 0 :=
    fun w hw => wsum_out k _ w hw (fun _ _ => rfl)
  have z0 := hz hold rfl
  have z1 := hz is1 rfl
  have z3 := hz is3 rfl
  have z4 := hz (pw1 k) rfl
  have z5 := hz (tw2 k) rfl
  have z6 := hz (pw2 k) rfl
  have z7 := hz h2 rfl
  refine ⟨rfl, ?_, 0, Or.inl ⟨?_, ?_, ?_, ?_, ?_, ?_, ?_⟩⟩
  · rw [z0]; rfl
  · intro q _; exact Or.inl ⟨rfl, by simp [loopInit]⟩
  · rw [z1]; rfl
  · show (0 : Int) < k; omega
  · rfl
  · exact z4
  · rw [z5, z6, z3]; rfl
  · exact Or.inl z7

theorem BInv_call (k : Nat) (s : BSys) (p : Nat) (hp : p < k) (hpc : (s.ctl p).pc = .out)
    (hinv : BInv k s) : BInv k (s.call p) := by
  obtain ⟨hstr, hmtx, g, hph⟩ := hinv
  have e0 := wsum_update k s.ctl p hp { gen := (s.ctl p).gen, pc := .lock1 } hold
  have e1 := wsum_update k s.ctl p hp { gen := (s.ctl p).gen, pc := .lock1 } is1
  have e2 := wsum_update k s.ctl p hp { gen := (s.ctl p).gen, pc := .lock1 } is2
  have e3 := wsum_update k s.ctl p hp { gen := (s.ctl p).gen, pc := .lock1 } is3
  have e4 := wsum_update k s.ctl p hp { gen := (s.ctl p).gen, pc := .lock1 } (tw1 k)
  have e5 := wsum_update k s.ctl p hp { gen := (s.ctl p).gen, pc := .lock1 } (pw1 k)
  have e6 := wsum_update k s.ctl p hp { gen := (s.ctl p).gen, pc := .lock1 } (tw2 k)
  have e7 := wsum_update k s.ctl p hp { gen := (s.ctl p).gen, pc := .lock1 } (pw2 k)
  have e8 := wsum_update k s.ctl p hp { gen := (s.ctl p).gen, pc := .lock1 } h2
  simp only [hpc, hold, is1, is2, is3, tw1, pw1, tw2, pw2, h2] at e0 e1 e2 e3 e4 e5 e6 e7 e8
  unfold BSys.call
  rcases hph with hU | hD
  · obtain ⟨hloc, hcnt, hlt, hpre, hnp, hpost, hex⟩ := hU
    have hl := hloc p hp
    unfold locU at hl
    have hs := congrArg stage hpc
    conv at hs => rhs; simp only [stage]
    refine ⟨hstr, ?_, g, Or.inl ⟨forall_update k s.ctl p _ (locU g) hloc ?_, ?_, ?_, ?_, ?_, ?_, ?_⟩⟩
    all_goals (try simp only [locU, stage, and_true])
    all_goals omega
  · obtain ⟨hloc, hcnt, hpos, hpost, hnp, hpre⟩ := hD
    have hl := hloc p hp
    unfold locD at hl
    have hs := congrArg stage hpc
    conv at hs => rhs; simp only [stage]
    exfalso; omega

theorem BInv_loopStep (k : Nat) (hk : 1 ≤ k) (s s1 : BSys) (p : Nat) (hp : p < k)
    (hinv : BInv k s) (hstep : loopStep s p = some s1) : BInv k s1 := by
  unfold loopStep at hstep
  split at hstep
  · rename_i hout
    simp only [Option.some.injEq] at hstep
    subst hstep
    exact BInv_call k s p hp hout hinv
  · unfold BSys.joinStep at hstep
    split at hstep
    · simp at hstep
    · rename_i b c hbc
      simp only [Option.some.injEq] at hstep
      subst hstep
      exact BInv_step k hk s p hp b c hinv hbc

theorem LoopReach_inv (k : Nat) (hk : 1 ≤ k) (s : BSys) (h : LoopReach k s) : BInv k s := by
  induction h with
  | init => exact BInv_init k hk
  | step p _ hp hstep ih => exact BInv_loopStep k hk _ _ p hp ih hstep

theorem LoopReach_exec (k : Nat) (sched : List Nat) (hs : ∀ p, p ∈ sched → p < k) :
    ∀ s, LoopReach k s → LoopReach k (loopExec s sched) := by
  induction sched with
  | nil => intro s h; exact h
  | cons p ps ih =>
    intro s h
    have hp : p < k := hs p (List.mem_cons_self _ _)
    have hps : ∀ q, q ∈ ps → q < k := fun q hq => hs q (List.mem_cons_of_mem _ hq)
    unfold loopExec
    split
    · exact ih hps s h
    · rename_i s1 hs1
      exact ih hps s1 (LoopReach.step p h hp hs1)


/-- Positions of a process that is not in stage `1`. -/
theorem is1_zero_of_stage (pc : JPc) (h : stage pc ≠ 1) : is1 pc = 0 := by
  cases pc <;> simp at h ⊢

theorem is2_zero_of_stage (pc : JPc) (h : stage pc ≠ 2) : is2 pc = 0 := by
  cases pc <;> simp at h ⊢

/-- In stage `3` a process is inside the exit critical section or at the last wait. -/
theorem stage3_cases (pc : JPc) (h : stage pc = 3) : h2 pc = 1 ∨ pc = .wait2 := by
  cases pc <;> simp at h ⊢

/-- A process that has passed the first `sem_wait(mutex)` and is not beyond stage
`1` holds the mutex in the entry section or is in stage `1`. -/
theorem begun_cases (pc : JPc) (h : stage pc ≤ 1) (h1 : pc ≠ .out) (h2 : pc ≠ .lock1) :
    hE pc = 1 ∨ is1 pc = 1 := by
  cases pc <;> simp at h h1 h2 ⊢

/-- Claim C2. Barrier entry phase: in every reachable state of `k` processes calling
`br_join` on a barrier of strength `k`, a process has returned from
`sem_wait(turnstile_pre)` of its call number `g` only if all `k` processes have
executed the increment of `count` of their call number `g`. -/
theorem barrier_entry (k : Nat) (hk : 1 ≤ k) (s : BSys) (hs : LoopReach k s) (g p q : Nat)
    (hp : p < k) (hq : q < k) (hpre : preDone s p g) : incDone s q g := by
  obtain ⟨_, _, g1, hph⟩ := LoopReach_inv k hk s hs
  unfold preDone at hpre
  unfold incDone
  rcases hph with hU | hD
  · have h1 := hU.loc p hp
    have h2 := hU.loc q hq
    unfold locU at h1 h2
    omega
  · have h1 := hD.loc p hp
    have h2 := hD.loc q hq
    unfold locD at h1 h2
    omega

/-- Every state obtained by running a schedule of processes `0` and `1` is
reachable. -/
theorem loopExec_reach (sched : List Nat) (h : ∀ p, p ∈ sched → p < 2) :
    LoopReach 2 (loopExec (loopInit 2) sched) :=
  LoopReach_exec 2 sched h _ LoopReach.init

/-- Instance of C2: two processes; in `entryState` process `1` has passed the
entry turnstile of its first call, and process `0` has incremented `count`. -/
theorem barrier_entry_witness :
    LoopReach 2 entryState ∧ preDone entryState 1 0 ∧ incDone entryState 0 0 :=
  ⟨loopExec_reach _ (by decide), by decide!,
   barrier_entry 2 (by decide) entryState (loopExec_reach _ (by decide)) 0 1 0
     (by decide) (by decide) (by decide!)⟩

/-- Claim C3 fails as stated. With two processes, process `0` returns from its first
call, re-enters, executes the first `sem_wait(mutex)` and the increment of `count`
of its second call while process `1` has not yet returned from
`sem_wait(turnstile_post)` of its first (state `raceState`). -/
theorem reusable_strong_fails : ¬ ReusableStrong 2 := by
  intro h
  have h1 : postDone raceState 1 0 :=
    h raceState (loopExec_reach _ (by decide)) 0 0 1 (by decide) (by decide) (by decide!)
  have h2 : ¬ postDone raceState 1 0 := by decide!
  exact h2 h1

/-- Claim C3, amended. No process begins its call number `g+1` (executes its first
`sem_wait(mutex)`) until every one of the `k` processes has executed the decrement
of `count` of its call number `g` and has left the critical section of the exit
phase: each is blocked at, or has returned from, `sem_wait(turnstile_post)` of
call `g`. -/
theorem barrier_reusable (k : Nat) (hk : 1 ≤ k) (s : BSys) (hs : LoopReach k s) (g p q : Nat)
    (hp : p < k) (hq : q < k) (hb : begun s p (g + 1)) :
    decDone s q g ∧ (postDone s q g ∨ ((s.ctl q).gen = g ∧ (s.ctl q).pc = .wait2)) := by
  obtain ⟨_, hmtx, g1, hph⟩ := LoopReach_inv k hk s hs
  unfold begun at hb
  unfold decDone postDone
  rcases hph with hU | hD
  · have h1 := hU.loc p hp
    have hq2 := hU.loc q hq
    unfold locU at h1 hq2
    by_cases hdone : g < (s.ctl q).gen
    · exact ⟨Or.inl hdone, Or.inl hdone⟩
    · have hqg : (s.ctl q).gen = g ∧ stage (s.ctl q).pc = 3 := by omega
      refine ⟨Or.inr ⟨hqg.1, by omega⟩, Or.inr ⟨hqg.1, ?_⟩⟩
      rcases stage3_cases _ hqg.2 with hx | hx
      · exfalso
        have hpg : (s.ctl p).gen = g + 1 ∧ (s.ctl p).pc ≠ .out ∧ (s.ctl p).pc ≠ .lock1 := by
          rcases hb with hb | hb
          · exfalso; omega
          · exact hb
        have hpb : hE (s.ctl p).pc = 1 ∨ is1 (s.ctl p).pc = 1 :=
          begun_cases _ (by omega) hpg.2.1 hpg.2.2
        have t1 := wsum_term_le k s.ctl h2 q hq
        have t2 := wsum_term_le k s.ctl hE p hp
        have t3 := wsum_term_le k s.ctl is1 p hp
        have hsp := wsum_hold_split k s.ctl
        have hex := hU.excl
        omega
      · exact hx
  · have h1 := hD.loc p hp
    have hq2 := hD.loc q hq
    unfold locD at h1 hq2
    have : g < (s.ctl q).gen := by omega
    exact ⟨Or.inl this, Or.inl this⟩

/-- Instance of the amended C3 at the state of the counterexample: process `0`
has begun its second call, process `1` has decremented `count` in its first call
and is at the last `sem_wait`, from which it has not returned. -/
theorem barrier_reusable_witness :
    LoopReach 2 raceState ∧ begun raceState 0 (0 + 1) ∧
    (decDone raceState 1 0 ∧
      (postDone raceState 1 0 ∨ ((raceState.ctl 1).gen = 0 ∧ (raceState.ctl 1).pc = .wait2))) ∧
    ¬ postDone raceState 1 0 :=
  ⟨loopExec_reach _ (by decide), by decide!,
   barrier_reusable 2 (by decide) raceState (loopExec_reach _ (by decide)) 0 0 1
     (by decide) (by decide) (by decide!), by decide!⟩

/-- Claim C4. Exit turnstile drains the entry phase: whenever a process is about to
execute the increment of `count` of its call number `g+1`, every one of the `k`
processes has returned from `sem_wait(turnstile_pre)` of call `g` and executed its
decrement, and `turnstile_pre` holds no pending post; and whenever a process of
call number `g+1` can consume a post of `turnstile_pre`, all `k` processes have
already incremented `count` in call `g+1`, so the post was made in that call. -/
theorem exit_turnstile_drains (k : Nat) (hk : 1 ≤ k) (s : BSys) (hs : LoopReach k s)
    (g p : Nat) (hp : p < k) (hgen : (s.ctl p).gen = g + 1) :
    ((s.ctl p).pc = .inc →
      (∀ q, q < k → preDone s q g ∧ decDone s q g) ∧ s.bar.turnstile_pre = 0) ∧
    ((s.ctl p).pc = .wait1 → 0 < s.bar.turnstile_pre →
      ∀ q, q < k → (s.ctl q).gen = g + 1 ∧ 1 ≤ stage (s.ctl q).pc) := by
  obtain ⟨_, hmtx, g1, hph⟩ := LoopReach_inv k hk s hs
  constructor
  · intro hpc
    have hst : stage (s.ctl p).pc = 0 := by rw [hpc]; rfl
    rcases hph with hU | hD
    · have h1 := hU.loc p hp
      unfold locU at h1
      refine ⟨?_, hU.pre⟩
      intro q hq
      have h2 := hU.loc q hq
      unfold locU at h2
      unfold preDone decDone
      omega
    · have h1 := hD.loc p hp
      unfold locD at h1
      omega
  · intro hpc hpos q hq
    rcases hph with hU | hD
    · have := hU.pre
      omega
    · have h1 := hD.loc p hp
      have h2 := hD.loc q hq
      unfold locD at h1 h2
      omega

/-- Instances of C4: in `reentryState` process `0` is about to increment `count`
in its second call; in `refillState` process `0` waits at `turnstile_pre` in its
second call and one post is pending. -/
theorem exit_turnstile_drains_witness :
    (LoopReach 2 reentryState ∧ (reentryState.ctl 0).gen = 0 + 1 ∧
      (reentryState.ctl 0).pc = .inc ∧
      ((∀ q, q < 2 → preDone reentryState q 0 ∧ decDone reentryState q 0) ∧
        reentryState.bar.turnstile_pre = 0)) ∧
    (LoopReach 2 refillState ∧ (refillState.ctl 0).gen = 0 + 1 ∧
      (refillState.ctl 0).pc = .wait1 ∧ 0 < refillState.bar.turnstile_pre ∧
      ∀ q, q < 2 → (refillState.ctl q).gen = 0 + 1 ∧ 1 ≤ stage (refillState.ctl q).pc) :=
  ⟨⟨loopExec_reach _ (by decide), by decide!, by decide!,
    (exit_turnstile_drains 2 (by decide) reentryState (loopExec_reach _ (by decide))
      0 0 (by decide) (by decide!)).1 (by decide!)⟩,
   ⟨loopExec_reach _ (by decide), by decide!, by decide!, by decide!,
    (exit_turnstile_drains 2 (by decide) refillState (loopExec_reach _ (by decide))
      0 0 (by decide) (by decide!)).2 (by decide!) (by decide!)⟩⟩

/-- Claim C10. Barrier counter invariant: in every reachable state of `k ≥ 1`
processes repeatedly calling `br_join` on the barrier opened by `br_open` with
strength `k`, `0 ≤ count ≤ strength` and `strength` is still `k`; once all `k`
processes have executed the decrement of call `g` and none the increment of call
`g+1`, `count` is `0`; and whenever no process is inside `br_join` the barrier is
exactly in the state `br_open` left it in. -/
theorem barrier_counter (k : Nat) (hk : 1 ≤ k) (s : BSys) (hs : LoopReach k s) :
    0 ≤ s.bar.count ∧ s.bar.count ≤ s.bar.strength ∧ s.bar.strength = (k : Int) ∧
    (∀ g, (∀ q, q < k → decDone s q g) → (∀ q, q < k → ¬ incDone s q (g + 1)) →
      s.bar.count = 0) ∧
    ((∀ q, q < k → (s.ctl q).pc = .out) → s.bar = br_open k) := by
  obtain ⟨hstr, hmtx, g1, hph⟩ := LoopReach_inv k hk s hs
  have hst := wsum_stage_le k s.ctl
  refine ⟨?_, ?_, hstr, ?_, ?_⟩
  · rcases hph with hU | hD
    · have := hU.cnt; omega
    · have := hD.cnt; omega
  · rcases hph with hU | hD
    · have := hU.cnt; omega
    · have := hD.cnt; omega
  · intro g hdec hinc
    rcases hph with hU | hD
    · have hz : wsum k s.ctl is1 = 0 := by
        apply wsum_eq_zero_of
        intro q hq
        apply is1_zero_of_stage
        intro hs1
        have h1 := hU.loc q hq
        have h2 := hdec q hq
        have h3 := hinc q hq
        unfold locU at h1
        unfold decDone at h2
        unfold incDone at h3
        omega
      have := hU.cnt
      omega
    · exfalso
      have h1 := hD.loc 0 (by omega)
      have h2 := hdec 0 (by omega)
      have h3 := hinc 0 (by omega)
      unfold locD at h1
      unfold decDone at h2
      unfold incDone at h3
      have hg : g1 = g := by omega
      have hz1 : wsum k s.ctl is1 = 0 := by
        apply wsum_eq_zero_of
        intro q hq
        apply is1_zero_of_stage
        have h4 := hD.loc q hq
        have h5 := hdec q hq
        unfold locD at h4
        unfold decDone at h5
        omega
      have hz2 : wsum k s.ctl is2 = 0 := by
        apply wsum_eq_zero_of
        intro q hq
        apply is2_zero_of_stage
        have h4 := hD.loc q hq
        have h5 := hdec q hq
        unfold locD at h4
        unfold decDone at h5
        omega
      have := hD.cnt
      have := hD.pos
      omega
  · intro hout
    have z0 := wsum_out k s.ctl hold rfl hout
    have z1 := wsum_out k s.ctl is1 rfl hout
    have z3 := wsum_out k s.ctl is3 rfl hout
    rcases hph with hU | hD
    · have h1 := hU.cnt
      have h2 := hU.pre
      have h3 := hU.post
      cases hb : s.bar with
      | mk st cn mu pr po =>
        rw [hb] at h1 h2 h3 hmtx hstr
        simp only [] at h1 h2 h3 hmtx hstr
        simp only [br_open, Barrier.mk.injEq]
        refine ⟨hstr, ?_, ?_, ?_, ?_⟩ <;> omega
    · exfalso
      have h1 := hD.loc 0 (by omega)
      have h2 := congrArg stage (hout 0 (by omega))
      unfold locD at h1
      conv at h2 => rhs; simp only [stage]
      omega

/-- Instance of C10: two processes; after both have completed their first call
(`cycleState`) the barrier is again as `br_open` left it, with `count = 0`. -/
theorem barrier_counter_witness :
    LoopReach 2 cycleState ∧
    (∀ q, q < 2 → decDone cycleState q 0) ∧ (∀ q, q < 2 → ¬ incDone cycleState q (0 + 1)) ∧
    (∀ q, q < 2 → (cycleState.ctl q).pc = .out) ∧
    cycleState.bar.count = 0 ∧ cycleState.bar = br_open ((2 : Nat) : Int) ∧
    cycleState.bar.count ≤ cycleState.bar.strength :=
  ⟨loopExec_reach _ (by decide), by decide!, by decide!, by decide!,
   (barrier_counter 2 (by decide) cycleState (loopExec_reach _ (by decide))).2.2.2.1 0
     (by decide!) (by decide!),
   (barrier_counter 2 (by decide) cycleState (loopExec_reach _ (by decide))).2.2.2.2
     (by decide!),
   (barrier_counter 2 (by decide) cycleState (loopExec_reach _ (by decide))).2.1⟩

/-! ## The game invariant -/

theorem sumTo_update_fn (n : Nat) (f f1 : Nat → Nat) (p : Nat) (hp : p < n)
    (h : ∀ q, q ≠ p → f1 q = f q) : sumTo n f1 + f p = sumTo n f + f1 p := by
  induction n with
  | zero => omega
  | succ n ih =>
    simp only [sumTo]
    by_cases hpn : p = n
    · subst hpn
      have : sumTo p f1 = sumTo p f := sumTo_congr (fun i hi => h i (by omega))
      omega
    · have := ih (by omega)
      rw [h n (fun h2 => hpn h2.symm)]
      omega

theorem sumTo_ge_mul (n c : Nat) (f : Nat → Nat) (h : ∀ j, j < n → c ≤ f j) :
    n * c ≤ sumTo n f := by
  have := sumTo_le_of_le (f := fun _ => c) (g := f) h
  rw [sumTo_const] at this
  exact this

theorem sumTo_eq_of_le (n c : Nat) (f : Nat → Nat) (h : ∀ j, j < n → c ≤ f j)
    (hs : sumTo n f ≤ n * c) : ∀ j, j < n → f j = c := by
  induction n with
  | zero => intro j hj; omega
  | succ n ih =>
    simp only [sumTo] at hs
    rw [Nat.succ_mul] at hs
    have h1 := sumTo_ge_mul n c f (fun j hj => h j (by omega))
    have h2 := h n (by omega)
    intro j hj
    rcases Nat.lt_succ_iff_lt_or_eq.mp hj with h3 | h3
    · exact ih (fun j hj => h j (by omega)) (by omega) j h3
    · subst h3; omega

theorem sumTo_gt_mul (n c : Nat) (f : Nat → Nat) (h : ∀ j, j < n → c ≤ f j) (j0 : Nat)
    (hj0 : j0 < n) (hlt : c < f j0) : n * c < sumTo n f := by
  by_contra hcon
  have := sumTo_eq_of_le n c f h (by omega) j0 hj0
  omega

/-- Shape of a step inside `br_join`: the process stays inside, or it returns
from the last `sem_wait`. -/
theorem br_join_step_shape (b0 b : Barrier) (c0 c : Ctl)
    (h : br_join_step b0 c0 = some (b, c)) :
    c0.pc ≠ .out ∧
    ((c.gen = c0.gen ∧ c.pc ≠ .out) ∨ (c0.pc = .wait2 ∧ c.gen = c0.gen + 1 ∧ c.pc = .out)) := by
  unfold br_join_step at h
  cases hpc : c0.pc <;> rw [hpc] at h <;> simp only [] at h
  case out => simp at h
  all_goals
    first
    | (simp only [Option.some.injEq, Prod.mk.injEq] at h
       obtain ⟨_, rfl⟩ := h
       simp)
    | (split at h
       · simp only [Option.some.injEq, Prod.mk.injEq] at h
         obtain ⟨_, rfl⟩ := h
         simp
       · first
         | (simp only [Option.some.injEq, Prod.mk.injEq] at h
            obtain ⟨_, rfl⟩ := h
            simp)
         | simp at h)

theorem stage_out_of_ne {pc : JPc} (h : stage pc ≠ 0) : pc ≠ .out := by
  intro h1; rw [h1] at h; exact h rfl

/-- During the filling phase of generation `g` every worker has consumed at least
`g` tokens. -/
theorem tokens_ge (n : Nat) (s : GState) (g : Nat)
    (hU : PhaseU (n + 1) g s.sys) : ∀ j, j < n → g ≤ wTokens s j := by
  intro j hj
  have h1 := hU.loc j (by omega)
  unfold locU at h1
  unfold wTokens wPassed
  rcases h1 with ⟨h1, _⟩ | ⟨h1, h2⟩
  · omega
  · have : (s.sys.ctl j).pc ≠ .out := stage_out_of_ne (by omega)
    rw [if_neg (fun h => this h.1)]
    omega

/-- While the coordinator scores, no token of `announce` is pending and every
worker has written exactly as many cards as the coordinator has completed calls
of `br_join`. -/
theorem scoring_quiet (n m : Nat) (s : GState) (hinv : GInv n m s)
    (hsc : sScoring (s.sys.ctl n) s.spc = 1) :
    s.announce = 0 ∧ ∀ j, j < n → (s.wlog j).length = (s.sys.ctl n).gen := by
  have hout : (s.sys.ctl n).pc = .out := by
    unfold sScoring at hsc
    by_contra h
    rw [if_neg h] at hsc
    omega
  have hposted : sPosted n (s.sys.ctl n) s.spc = 0 := by
    unfold sScoring at hsc
    unfold sPosted
    rw [if_pos hout] at hsc ⊢
    cases hsp : s.spc <;> rw [hsp] at hsc <;> simp at hsc ⊢
  obtain ⟨g, hU | hD⟩ := hinv.bar.phase
  · have hl := hU.loc n (by omega)
    unfold locU at hl
    have hst : stage (s.sys.ctl n).pc = 0 := by rw [hout]; rfl
    have hg : (s.sys.ctl n).gen = g := by omega
    have hge := tokens_ge n s g hU
    have hsum := sumTo_ge_mul n g (wTokens s) hge
    have hann := hinv.ann
    rw [hposted, hg] at hann
    have hann2 : s.announce + sumTo n (wTokens s) = n * g := by
      simpa [wTokens] using hann
    have heq := sumTo_eq_of_le n g (wTokens s) hge (by omega)
    refine ⟨by omega, ?_⟩
    intro j hj
    have h1 := heq j hj
    have h2 := hinv.wlen j hj
    have h3 := hU.loc j (by omega)
    unfold locU at h3
    unfold wTokens wPassed at h1
    unfold wWritten at h2
    rw [h2, hg]
    rcases h3 with ⟨h3, _⟩ | ⟨h3, h4⟩
    · by_cases hc : (s.sys.ctl j).pc = .out ∧ s.wpc j = .wwait
      · rw [if_pos ⟨hc.1, by rw [hc.2]; decide⟩]
        omega
      · rw [if_neg hc] at h1
        omega
    · have : (s.sys.ctl j).pc ≠ .out := stage_out_of_ne (by omega)
      rw [if_neg (fun h => this h.1)]
      omega
  · have hl := hD.loc n (by omega)
    unfold locD at hl
    have hst : stage (s.sys.ctl n).pc = 0 := by rw [hout]; rfl
    omega

/-- While a worker is between its `sem_wait(announce)` and its call of `br_join`
(or has finished), the coordinator is in the same round, has posted for it and
is not scoring. -/
theorem worker_active (n m : Nat) (s : GState) (hinv : GInv n m s) (j : Nat) (hj : j < n)
    (hout : (s.sys.ctl j).pc = .out) (hw : s.wpc j ≠ .wwait) :
    (s.sys.ctl n).gen = (s.sys.ctl j).gen ∧ sScoring (s.sys.ctl n) s.spc = 0 ∧
    1 ≤ sPosted n (s.sys.ctl n) s.spc ∧ sScored (s.sys.ctl n) s.spc j = (s.sys.ctl j).gen := by
  have htok : wTokens s j = (s.sys.ctl j).gen + 1 := by
    unfold wTokens wPassed
    rw [if_neg (fun h => hw h.2)]
  obtain ⟨g, hU | hD⟩ := hinv.bar.phase
  · have hl := hU.loc j (by omega)
    unfold locU at hl
    have hst : stage (s.sys.ctl j).pc = 0 := by rw [hout]; rfl
    have hg : (s.sys.ctl j).gen = g := by omega
    have hge := tokens_ge n s g hU
    have hsum := sumTo_gt_mul n g (wTokens s) hge j hj (by omega)
    have hann := hinv.ann
    have hann2 : s.announce + sumTo n (wTokens s) =
        n * (s.sys.ctl n).gen + sPosted n (s.sys.ctl n) s.spc := by
      simpa [wTokens] using hann
    have hc := hU.loc n (by omega)
    unfold locU at hc
    have hgn : (s.sys.ctl n).gen = g := by
      rcases hc with ⟨hc, _⟩ | ⟨hc, hc2⟩
      · exact hc
      · exfalso
        have hno : (s.sys.ctl n).pc ≠ .out := stage_out_of_ne (by omega)
        have hp : sPosted n (s.sys.ctl n) s.spc = n := by
          unfold sPosted; rw [if_neg hno]
        rw [hp] at hann2
        rw [← hc, Nat.mul_succ] at hsum
        omega
    rw [hgn] at hann2
    have hpos : 1 ≤ sPosted n (s.sys.ctl n) s.spc := by omega
    have hns : sScoring (s.sys.ctl n) s.spc = 0 := by
      unfold sPosted at hpos
      unfold sScoring
      by_cases ho : (s.sys.ctl n).pc = .out
      · rw [if_pos ho] at hpos ⊢
        cases hsp : s.spc <;> rw [hsp] at hpos <;> simp at hpos ⊢
      · rw [if_neg ho]
    refine ⟨by omega, hns, hpos, ?_⟩
    unfold sScoring at hns
    unfold sScored
    by_cases ho : (s.sys.ctl n).pc = .out
    · rw [if_pos ho] at hns ⊢
      cases hsp : s.spc <;> rw [hsp] at hns <;> simp at hns ⊢ <;> omega
    · rw [if_neg ho]; omega
  · have hl := hD.loc j (by omega)
    unfold locD at hl
    have hst : stage (s.sys.ctl j).pc = 0 := by rw [hout]; rfl
    omega

/-- A step of worker `p` that leaves the other processes and the coordinator's
data alone preserves the invariant, given the facts about `p` itself. -/
theorem GInv_worker_frame (n m : Nat) (s s1 : GState) (p : Nat) (hp : p < n)
    (hinv : GInv n m s)
    (hbar : BInv (n + 1) s1.sys)
    (hctl : ∀ q, q ≠ p → s1.sys.ctl q = s.sys.ctl q)
    (hwpc : ∀ q, q ≠ p → s1.wpc q = s.wpc q)
    (hwk : ∀ q, q ≠ p → s1.wk q = s.wk q)
    (hspc : s1.spc = s.spc)
    (hwlog : ∀ q, q ≠ p → s1.wlog q = s.wlog q)
    (hslog : s1.slog = s.slog)
    (hbuf : ∀ q, q ≠ p → s1.buf q = s.buf q)
    (hloc : WLoc m (s1.sys.ctl p) (s1.wpc p))
    (hidx : (s1.wk p).index = p)
    (htok : s1.announce + wTokens s1 p = s.announce + wTokens s p)
    (hlen : (s1.wlog p).length =
      (s1.sys.ctl p).gen + wWritten (s1.sys.ctl p) (s1.wpc p))
    (hslot : SlotOk (s1.buf p) (s1.wlog p) (s1.slog p))
    (hrem : (s1.wk p).remaining = (m : Int) - ((s1.wlog p).length : Int)) :
    GInv n m s1 := by
  have hn : n ≠ p := by omega
  refine ⟨hbar, ?_, ?_, ?_, ?_, ?_, ?_, ?_, ?_⟩
  · intro j hj
    by_cases hjp : j = p
    · subst hjp; exact hloc
    · rw [hctl j hjp, hwpc j hjp]; exact hinv.wloc j hj
  · intro j hj
    by_cases hjp : j = p
    · subst hjp; exact hidx
    · rw [hwk j hjp]; exact hinv.widx j hj
  · rw [hctl n hn, hspc]; exact hinv.sloc
  · have h1 := sumTo_update_fn n (wTokens s) (wTokens s1) p hp (fun q hq => by
      unfold wTokens; rw [hctl q hq, hwpc q hq])
    have h2 := hinv.ann
    rw [hctl n hn, hspc]
    show s1.announce + sumTo n (wTokens s1) = _
    have h3 : s.announce + sumTo n (wTokens s) =
        n * (s.sys.ctl n).gen + sPosted n (s.sys.ctl n) s.spc := h2
    omega
  · intro j hj
    by_cases hjp : j = p
    · subst hjp; exact hlen
    · rw [hctl j hjp, hwpc j hjp, hwlog j hjp]; exact hinv.wlen j hj
  · intro j hj
    rw [hctl n hn, hspc, hslog]; exact hinv.slen j hj
  · intro j hj
    by_cases hjp : j = p
    · subst hjp; exact hslot
    · rw [hbuf j hjp, hwlog j hjp, hslog]; exact hinv.slot j hj
  · intro j hj
    by_cases hjp : j = p
    · subst hjp; exact hrem
    · rw [hwk j hjp, hwlog j hjp]; exact hinv.rem j hj

/-- A step of the coordinator that leaves the workers alone preserves the
invariant, given the facts about the coordinator itself. -/
theorem GInv_server_frame (n m : Nat) (s s1 : GState) (hinv : GInv n m s)
    (hbar : BInv (n + 1) s1.sys)
    (hctl : ∀ q, q ≠ n → s1.sys.ctl q = s.sys.ctl q)
    (hwpc : s1.wpc = s.wpc)
    (hwk : s1.wk = s.wk)
    (hwlog : s1.wlog = s.wlog)
    (hloc : SLoc n m (s1.sys.ctl n) s1.spc)
    (hann : s1.announce + (n * (s.sys.ctl n).gen + sPosted n (s.sys.ctl n) s.spc) =
      s.announce + (n * (s1.sys.ctl n).gen + sPosted n (s1.sys.ctl n) s1.spc))
    (hslen : ∀ j, j < n → (s1.slog j).length = sScored (s1.sys.ctl n) s1.spc j)
    (hslot : ∀ j, j < n → SlotOk (s1.buf j) (s.wlog j) (s1.slog j)) :
    GInv n m s1 := by
  refine ⟨hbar, ?_, ?_, hloc, ?_, ?_, hslen, ?_, ?_⟩
  · intro j hj
    rw [hctl j (by omega), hwpc]; exact hinv.wloc j hj
  · intro j hj
    rw [hwk]; exact hinv.widx j hj
  · have h1 : sumTo n (wTokens s1) = sumTo n (wTokens s) :=
      sumTo_congr (fun j hj => by unfold wTokens; rw [hctl j (by omega), hwpc])
    have h2 : s.announce + sumTo n (wTokens s) =
        n * (s.sys.ctl n).gen + sPosted n (s.sys.ctl n) s.spc := hinv.ann
    show s1.announce + sumTo n (wTokens s1) = _
    omega
  · intro j hj
    rw [hctl j (by omega), hwpc, hwlog]; exact hinv.wlen j hj
  · intro j hj
    rw [hwlog]; exact hslot j hj
  · intro j hj
    rw [hwk, hwlog]; exact hinv.rem j hj

theorem GInv_join (n m : Nat) (s : GState) (p : Nat) (hp : p ≤ n) (b : Barrier) (c : Ctl)
    (hinv : GInv n m s) (hstep : br_join_step s.sys.bar (s.sys.ctl p) = some (b, c)) :
    GInv n m { s with sys := { bar := b, ctl := Function.update s.sys.ctl p c } } := by
  have hbar := BInv_step (n + 1) (by omega) s.sys p (by omega) b c hinv.bar hstep
  obtain ⟨hne, hshape⟩ := br_join_step_shape _ _ _ _ hstep
  rcases Nat.lt_or_ge p n with hlt | hge
  · have hw := hinv.wloc p hlt
    have hl := hinv.wlen p hlt
    unfold WLoc at hw
    obtain ⟨hw1, hw2, _, _⟩ := hw
    obtain ⟨hwait, hgm⟩ := hw2 hne
    apply GInv_worker_frame n m s _ p hlt hinv hbar
    · intro q hq; exact Function.update_noteq hq _ _
    · intro q _; rfl
    · intro q _; rfl
    · rfl
    · intro q _; rfl
    · rfl
    · intro q _; rfl
    · show WLoc m (Function.update s.sys.ctl p c p) (s.wpc p)
      rw [Function.update_same]
      unfold WLoc
      rcases hshape with ⟨h1, h2⟩ | ⟨h0, h1, h2⟩
      · exact ⟨by omega, fun _ => ⟨hwait, by omega⟩, fun h => absurd h h2, fun h => absurd h h2⟩
      · refine ⟨by omega, fun h => absurd h2 h, fun _ h => ?_, fun _ h => ?_⟩ <;>
          (rw [hwait] at h; simp at h)
    · exact hinv.widx p hlt
    · show s.announce + wTokens _ p = s.announce + wTokens s p
      have hold : wPassed (s.sys.ctl p) (s.wpc p) = 1 := by
        unfold wPassed; rw [if_neg (fun h => hne h.1)]
      unfold wTokens
      simp only [Function.update_same]
      rw [hold]
      rcases hshape with ⟨h1, h2⟩ | ⟨h0, h1, h2⟩
      · have hnew : wPassed c (s.wpc p) = 1 := by
          unfold wPassed; rw [if_neg (fun h => h2 h.1)]
        rw [hnew]; omega
      · have hnew : wPassed c (s.wpc p) = 0 := by
          unfold wPassed; rw [if_pos ⟨h2, hwait⟩]
        rw [hnew]; omega
    · show (s.wlog p).length = (Function.update s.sys.ctl p c p).gen +
        wWritten (Function.update s.sys.ctl p c p) (s.wpc p)
      have hold : wWritten (s.sys.ctl p) (s.wpc p) = 1 := by
        unfold wWritten; rw [if_neg (fun h => hne h.1)]
      rw [Function.update_same, hl, hold]
      rcases hshape with ⟨h1, h2⟩ | ⟨h0, h1, h2⟩
      · have hnew : wWritten c (s.wpc p) = 1 := by
          unfold wWritten; rw [if_neg (fun h => h2 h.1)]
        rw [hnew]; omega
      · have hnew : wWritten c (s.wpc p) = 0 := by
          unfold wWritten; rw [if_pos ⟨h2, by rw [hwait]; decide⟩]
        rw [hnew]; omega
    · exact hinv.slot p hlt
    · exact hinv.rem p hlt
  · have hpn : p = n := by omega
    subst hpn
    have hsl := hinv.sloc
    unfold SLoc at hsl
    obtain ⟨hs1, hs2, hs3, hs4, hs5, hs6⟩ := hsl
    obtain ⟨hreset, hgm⟩ := hs2 hne
    apply GInv_server_frame p m s _ hinv hbar
    · intro q hq; exact Function.update_noteq hq _ _
    · rfl
    · rfl
    · rfl
    · show SLoc p m (Function.update s.sys.ctl p c p) s.spc
      rw [Function.update_same]
      unfold SLoc
      rcases hshape with ⟨h1, h2⟩ | ⟨h0, h1, h2⟩
      · refine ⟨by omega, fun _ => ⟨hreset, by omega⟩, fun h => absurd h h2,
          fun h => absurd h h2, fun h => ?_, hs6⟩
        unfold sScoring at h
        rw [if_neg h2] at h
        omega
      · refine ⟨by omega, fun h => absurd h2 h, fun _ h => ?_, fun _ h => ?_,
          fun _ => by omega, hs6⟩ <;> (rw [hreset] at h; simp at h)
    · show s.announce + _ = s.announce + (p * (Function.update s.sys.ctl p c p).gen +
        sPosted p (Function.update s.sys.ctl p c p) s.spc)
      have hold : sPosted p (s.sys.ctl p) s.spc = p := by
        unfold sPosted; rw [if_neg hne]
      rw [Function.update_same, hold]
      rcases hshape with ⟨h1, h2⟩ | ⟨h0, h1, h2⟩
      · have hnew : sPosted p c s.spc = p := by
          unfold sPosted; rw [if_neg h2]
        rw [hnew, h1]
      · have hnew : sPosted p c s.spc = 0 := by
          unfold sPosted; rw [if_pos h2, hreset]
        rw [hnew, h1, Nat.mul_succ]; omega
    · intro j hj
      show (s.slog j).length = sScored (Function.update s.sys.ctl p c p) s.spc j
      have hold : sScored (s.sys.ctl p) s.spc j = (s.sys.ctl p).gen := by
        unfold sScored; rw [if_neg hne]
      rw [Function.update_same, hinv.slen j hj, hold]
      rcases hshape with ⟨h1, h2⟩ | ⟨h0, h1, h2⟩
      · have hnew : sScored c s.spc j = c.gen := by
          unfold sScored; rw [if_neg h2]
        rw [hnew, h1]
      · have hnew : sScored c s.spc j = c.gen - 1 := by
          unfold sScored; rw [if_pos h2, hreset]
        rw [hnew, h1]; omega
    · intro j hj
      exact hinv.slot j hj

theorem worker_draw_index (w : Worker) (r : Nat) : (worker_draw w r).2.index = w.index := rfl

theorem worker_draw_remaining (w : Worker) (r : Nat) :
    (worker_draw w r).2.remaining = w.remaining - 1 := rfl

theorem wPassed_wait (c : Ctl) (h : c.pc = .out) : wPassed c .wwait = 0 := by
  unfold wPassed; rw [if_pos ⟨h, rfl⟩]

theorem wPassed_ne (c : Ctl) (w : WPc) (h : w ≠ .wwait) : wPassed c w = 1 := by
  unfold wPassed; rw [if_neg (fun h1 => h h1.2)]

theorem wPassed_in (c : Ctl) (w : WPc) (h : c.pc ≠ .out) : wPassed c w = 1 := by
  unfold wPassed; rw [if_neg (fun h1 => h h1.1)]

theorem wWritten_out (c : Ctl) (w : WPc) (h : c.pc = .out) (hw : w ≠ .wjoin) :
    wWritten c w = 0 := by
  unfold wWritten; rw [if_pos ⟨h, hw⟩]

theorem wWritten_join (c : Ctl) : wWritten c .wjoin = 1 := by
  unfold wWritten; rw [if_neg (fun h1 => h1.2 rfl)]

theorem wWritten_in (c : Ctl) (w : WPc) (h : c.pc ≠ .out) : wWritten c w = 1 := by
  unfold wWritten; rw [if_neg (fun h1 => h h1.1)]

theorem GInv_worker (n m : Nat) (s s1 : GState) (p r : Nat) (hp : p < n) (hinv : GInv n m s)
    (hout : (s.sys.ctl p).pc = .out) (hstep : worker_run_step m s p r = some s1) : GInv n m s1 := by
  have hwl := hinv.wloc p hp
  have hlen := hinv.wlen p hp
  have hidx := hinv.widx p hp
  unfold WLoc at hwl
  obtain ⟨h1, h2, h3, h4⟩ := hwl
  unfold worker_run_step at hstep
  cases hw : s.wpc p <;> rw [hw] at hstep <;> simp only [] at hstep
  case wwait =>
    split at hstep
    · rename_i hann
      simp only [Option.some.injEq] at hstep
      subst hstep
      have hnw : (if (s.sys.ctl p).gen < m then WPc.wread else WPc.wreadF) ≠ WPc.wwait := by
        split <;> decide
      have hnj : (if (s.sys.ctl p).gen < m then WPc.wread else WPc.wreadF) ≠ WPc.wjoin := by
        split <;> decide
      refine GInv_worker_frame n m s _ p hp hinv hinv.bar (fun q _ => rfl)
        (fun q hq => Function.update_noteq hq _ _) (fun q _ => rfl) rfl (fun q _ => rfl) rfl
        (fun q _ => rfl) ?_ hidx ?_ ?_ (hinv.slot p hp) (hinv.rem p hp)
      · show WLoc m (s.sys.ctl p) (Function.update s.wpc p _ p)
        rw [Function.update_same]
        unfold WLoc
        by_cases hg : (s.sys.ctl p).gen < m
        · rw [if_pos hg]
          exact ⟨h1, fun h => absurd hout h, fun _ _ => hg, fun _ h => by simp at h⟩
        · rw [if_neg hg]
          exact ⟨h1, fun h => absurd hout h, fun _ h => by simp at h, fun _ _ => by omega⟩
      · show s.announce - 1 + ((s.sys.ctl p).gen +
          wPassed (s.sys.ctl p) (Function.update s.wpc p _ p)) = s.announce + wTokens s p
        rw [Function.update_same]
        unfold wTokens
        rw [wPassed_ne _ _ hnw, hw, wPassed_wait _ hout]
        omega
      · show (s.wlog p).length = (s.sys.ctl p).gen +
          wWritten (s.sys.ctl p) (Function.update s.wpc p _ p)
        rw [Function.update_same, hlen, wWritten_out _ _ hout hnj, hw,
          wWritten_out _ _ hout (by decide)]
    · simp at hstep
  case wread =>
    simp only [Option.some.injEq] at hstep
    subst hstep
    refine GInv_worker_frame n m s _ p hp hinv hinv.bar (fun q _ => rfl)
      (fun q hq => Function.update_noteq hq _ _) (fun q _ => rfl) rfl (fun q _ => rfl) rfl
      (fun q _ => rfl) ?_ hidx ?_ ?_ (hinv.slot p hp) (hinv.rem p hp)
    · show WLoc m (s.sys.ctl p) (Function.update s.wpc p _ p)
      rw [Function.update_same]
      exact ⟨h1, fun h => absurd hout h, fun _ _ => h3 hout (Or.inl hw), fun _ h => by simp at h⟩
    · show s.announce + ((s.sys.ctl p).gen +
        wPassed (s.sys.ctl p) (Function.update s.wpc p _ p)) = s.announce + wTokens s p
      rw [Function.update_same]
      unfold wTokens
      rw [wPassed_ne _ _ (by decide), hw, wPassed_ne _ _ (by decide)]
    · show (s.wlog p).length = (s.sys.ctl p).gen +
        wWritten (s.sys.ctl p) (Function.update s.wpc p _ p)
      rw [Function.update_same, hlen, hw, wWritten_out _ WPc.wread hout (by decide),
        wWritten_out _ WPc.wwrite hout (by decide)]
  case wwrite =>
    simp only [Option.some.injEq] at hstep
    subst hstep
    rw [hidx]
    have hact := worker_active n m s hinv p hp hout (by rw [hw]; decide)
    have hsl := hinv.slen p hp
    have hlen0 : (s.wlog p).length = (s.sys.ctl p).gen := by
      rw [hlen, hw, wWritten_out _ _ hout (by decide)]; omega
    refine GInv_worker_frame n m s _ p hp hinv hinv.bar (fun q _ => rfl)
      (fun q hq => Function.update_noteq hq _ _) (fun q hq => Function.update_noteq hq _ _) rfl
      (fun q hq => Function.update_noteq hq _ _) rfl
      (fun q hq => Function.update_noteq hq _ _) ?_ ?_ ?_ ?_ ?_ ?_
    · show WLoc m (s.sys.ctl p) (Function.update s.wpc p _ p)
      rw [Function.update_same]
      exact ⟨h1, fun h => absurd hout h, fun _ _ => h3 hout (Or.inr (Or.inl hw)),
        fun _ h => by simp at h⟩
    · show (Function.update s.wk p _ p).index = p
      rw [Function.update_same, worker_draw_index]; exact hidx
    · show s.announce + ((s.sys.ctl p).gen +
        wPassed (s.sys.ctl p) (Function.update s.wpc p _ p)) = s.announce + wTokens s p
      rw [Function.update_same]
      unfold wTokens
      rw [wPassed_ne _ _ (by decide), hw, wPassed_ne _ _ (by decide)]
    · show (Function.update s.wlog p _ p).length = (s.sys.ctl p).gen +
        wWritten (s.sys.ctl p) (Function.update s.wpc p _ p)
      rw [Function.update_same, Function.update_same, wWritten_join]
      simp only [List.length_append, List.length_singleton]
      omega
    · show SlotOk (Function.update s.buf p _ p) (Function.update s.wlog p _ p) (s.slog p)
      rw [Function.update_same, Function.update_same]
      left
      refine ⟨?_, by simp⟩
      simp only [List.length_append, List.length_singleton]
      omega
    · show (Function.update s.wk p _ p).remaining =
        (m : Int) - ((Function.update s.wlog p _ p).length : Int)
      rw [Function.update_same, Function.update_same, worker_draw_remaining, hinv.rem p hp]
      simp only [List.length_append, List.length_singleton]
      push_cast
      omega
  case wjoin =>
    simp only [Option.some.injEq] at hstep
    subst hstep
    have hc : (s.sys.call p).ctl p = { gen := (s.sys.ctl p).gen, pc := .lock1 } := by
      unfold BSys.call; simp only [Function.update_same]
    refine GInv_worker_frame n m s _ p hp hinv (BInv_call (n + 1) s.sys p (by omega) hout hinv.bar)
      (fun q hq => Function.update_noteq hq _ _)
      (fun q hq => Function.update_noteq hq _ _) (fun q _ => rfl) rfl (fun q _ => rfl) rfl
      (fun q _ => rfl) ?_ hidx ?_ ?_ (hinv.slot p hp) (hinv.rem p hp)
    · show WLoc m ((s.sys.call p).ctl p) (Function.update s.wpc p _ p)
      rw [Function.update_same, hc]
      exact ⟨h1, fun _ => ⟨rfl, h3 hout (Or.inr (Or.inr hw))⟩, fun h => by simp at h,
        fun h => by simp at h⟩
    · show s.announce + (((s.sys.call p).ctl p).gen +
        wPassed ((s.sys.call p).ctl p) (Function.update s.wpc p _ p)) = s.announce + wTokens s p
      rw [Function.update_same, hc]
      unfold wTokens
      rw [wPassed_in _ _ (by simp), hw, wPassed_ne _ _ (by decide)]
    · show (s.wlog p).length = ((s.sys.call p).ctl p).gen +
        wWritten ((s.sys.call p).ctl p) (Function.update s.wpc p _ p)
      rw [Function.update_same, hc, hlen, hw, wWritten_join, wWritten_in _ _ (by simp)]
  case wreadF =>
    simp only [Option.some.injEq] at hstep
    subst hstep
    refine GInv_worker_frame n m s _ p hp hinv hinv.bar (fun q _ => rfl)
      (fun q hq => Function.update_noteq hq _ _) (fun q _ => rfl) rfl (fun q _ => rfl) rfl
      (fun q _ => rfl) ?_ hidx ?_ ?_ (hinv.slot p hp) (hinv.rem p hp)
    · show WLoc m (s.sys.ctl p) (Function.update s.wpc p _ p)
      rw [Function.update_same]
      exact ⟨h1, fun h => absurd hout h, fun _ h => by simp at h,
        fun _ _ => h4 hout (Or.inl hw)⟩
    · show s.announce + ((s.sys.ctl p).gen +
        wPassed (s.sys.ctl p) (Function.update s.wpc p _ p)) = s.announce + wTokens s p
      rw [Function.update_same]
      unfold wTokens
      rw [wPassed_ne _ _ (by decide), hw, wPassed_ne _ _ (by decide)]
    · show (s.wlog p).length = (s.sys.ctl p).gen +
        wWritten (s.sys.ctl p) (Function.update s.wpc p _ p)
      rw [Function.update_same, hlen, hw, wWritten_out _ WPc.wreadF hout (by decide),
        wWritten_out _ WPc.wdone hout (by decide)]
  case wdone => simp at hstep

theorem scoreBody_buf_ne (players max cnt : Int) (t : Tally) (j j1 : Nat) (h : j1 ≠ j) :
    (scoreBody players max cnt t j).buf j1 = t.buf j1 := by
  unfold scoreBody
  split <;> exact Function.update_noteq h _ _

theorem GInv_server (n m : Nat) (s s1 : GState) (hinv : GInv n m s)
    (hout : (s.sys.ctl n).pc = .out) (hstep : server_run_step n m s = some s1) : GInv n m s1 := by
  have hsl := hinv.sloc
  unfold SLoc at hsl
  obtain ⟨hs1, hs2, hs3, hs4, hs5, hs6⟩ := hsl
  unfold server_run_step at hstep
  cases hsp : s.spc <;> rw [hsp] at hstep <;> simp only [] at hstep
  case sann j =>
    have hjn : j ≤ n := hs6 j (Or.inl hsp)
    split at hstep
    · rename_i hlt
      simp only [Option.some.injEq] at hstep
      subst hstep
      refine GInv_server_frame n m s _ hinv hinv.bar (fun q _ => rfl) rfl rfl rfl ?_ ?_ ?_
        hinv.slot
      · show SLoc n m (s.sys.ctl n) (.sann (j + 1))
        refine ⟨hs1, fun h => absurd hout h, fun _ h => by simp at h, fun _ h => by simp at h,
          fun h => by simp [sScoring, hout] at h, fun j1 h => ?_⟩
        simp at h
        omega
      · show s.announce + 1 + (n * (s.sys.ctl n).gen + sPosted n (s.sys.ctl n) s.spc) =
          s.announce + (n * (s.sys.ctl n).gen + sPosted n (s.sys.ctl n) (.sann (j + 1)))
        rw [hsp]
        simp only [sPosted, hout, if_true]
        omega
      · intro j1 hj1
        show (s.slog j1).length = sScored (s.sys.ctl n) (.sann (j + 1)) j1
        rw [hinv.slen j1 hj1, hsp]
        simp only [sScored, hout, if_true]
    · rename_i hge
      simp only [Option.some.injEq] at hstep
      subst hstep
      have hjeq : j = n := by omega
      refine GInv_server_frame n m s _ hinv hinv.bar (fun q _ => rfl) rfl rfl rfl ?_ ?_ ?_
        hinv.slot
      · show SLoc n m (s.sys.ctl n) (if (s.sys.ctl n).gen < m then .sjoin else .sdone)
        by_cases hg : (s.sys.ctl n).gen < m
        · rw [if_pos hg]
          exact ⟨hs1, fun h => absurd hout h, fun _ _ => hg, fun _ h => by simp at h,
            fun h => by simp [sScoring, hout] at h, fun j1 h => by simp at h⟩
        · rw [if_neg hg]
          exact ⟨hs1, fun h => absurd hout h, fun _ h => by simp at h, fun _ _ => by omega,
            fun h => by simp [sScoring, hout] at h, fun j1 h => by simp at h⟩
      · show s.announce + (n * (s.sys.ctl n).gen + sPosted n (s.sys.ctl n) s.spc) =
          s.announce + (n * (s.sys.ctl n).gen +
            sPosted n (s.sys.ctl n) (if (s.sys.ctl n).gen < m then .sjoin else .sdone))
        rw [hsp]
        by_cases hg : (s.sys.ctl n).gen < m
        · rw [if_pos hg]; simp only [sPosted, hout, if_true]; omega
        · rw [if_neg hg]; simp only [sPosted, hout, if_true]; omega
      · intro j1 hj1
        show (s.slog j1).length =
          sScored (s.sys.ctl n) (if (s.sys.ctl n).gen < m then .sjoin else .sdone) j1
        rw [hinv.slen j1 hj1, hsp]
        by_cases hg : (s.sys.ctl n).gen < m
        · rw [if_pos hg]; simp only [sScored, hout, if_true]
        · rw [if_neg hg]; simp only [sScored, hout, if_true]
  case sjoin =>
    simp only [Option.some.injEq] at hstep
    subst hstep
    have hc : (s.sys.call n).ctl n = { gen := (s.sys.ctl n).gen, pc := .lock1 } := by
      unfold BSys.call; simp only [Function.update_same]
    refine GInv_server_frame n m s _ hinv (BInv_call (n + 1) s.sys n (by omega) hout hinv.bar)
      (fun q hq => Function.update_noteq hq _ _) rfl rfl rfl ?_ ?_ ?_ hinv.slot
    · show SLoc n m ((s.sys.call n).ctl n) .sreset
      rw [hc]
      exact ⟨hs1, fun _ => ⟨rfl, hs3 hout hsp⟩, fun h => by simp at h, fun h => by simp at h,
        fun h => by simp [sScoring] at h, fun j1 h => by simp at h⟩
    · show s.announce + (n * (s.sys.ctl n).gen + sPosted n (s.sys.ctl n) s.spc) =
        s.announce + (n * ((s.sys.call n).ctl n).gen + sPosted n ((s.sys.call n).ctl n) .sreset)
      rw [hc, hsp]
      simp [sPosted, hout]
    · intro j1 hj1
      show (s.slog j1).length = sScored ((s.sys.call n).ctl n) .sreset j1
      rw [hc, hinv.slen j1 hj1, hsp]
      simp [sScored, hout]
  case sreset =>
    simp only [Option.some.injEq] at hstep
    subst hstep
    have hg1 : 1 ≤ (s.sys.ctl n).gen := hs5 (by rw [hsp]; simp [sScoring, hout])
    refine GInv_server_frame n m s _ hinv hinv.bar (fun q _ => rfl) rfl rfl rfl ?_ ?_ ?_
      hinv.slot
    · show SLoc n m (s.sys.ctl n) (.sscan 0)
      refine ⟨hs1, fun h => absurd hout h, fun _ h => by simp at h, fun _ h => by simp at h,
        fun _ => hg1, fun j1 h => ?_⟩
      simp at h
      omega
    · show s.announce + (n * (s.sys.ctl n).gen + sPosted n (s.sys.ctl n) s.spc) =
        s.announce + (n * (s.sys.ctl n).gen + sPosted n (s.sys.ctl n) (.sscan 0))
      rw [hsp]
      simp only [sPosted, hout, if_true]
    · intro j1 hj1
      show (s.slog j1).length = sScored (s.sys.ctl n) (.sscan 0) j1
      rw [hinv.slen j1 hj1, hsp]
      simp only [sScored, hout, if_true]
  case sscan j =>
    have hjn : j ≤ n := hs6 j (Or.inr (Or.inl hsp))
    have hg1 : 1 ≤ (s.sys.ctl n).gen := hs5 (by rw [hsp]; simp [sScoring, hout])
    split at hstep
    · rename_i hlt
      simp only [Option.some.injEq] at hstep
      subst hstep
      refine GInv_server_frame n m s _ hinv hinv.bar (fun q _ => rfl) rfl rfl rfl ?_ ?_ ?_
        hinv.slot
      · show SLoc n m (s.sys.ctl n) (.sscan (j + 1))
        refine ⟨hs1, fun h => absurd hout h, fun _ h => by simp at h, fun _ h => by simp at h,
          fun _ => hg1, fun j1 h => ?_⟩
        simp at h
        omega
      · show s.announce + (n * (s.sys.ctl n).gen + sPosted n (s.sys.ctl n) s.spc) =
          s.announce + (n * (s.sys.ctl n).gen + sPosted n (s.sys.ctl n) (.sscan (j + 1)))
        rw [hsp]
        simp only [sPosted, hout, if_true]
      · intro j1 hj1
        show (s.slog j1).length = sScored (s.sys.ctl n) (.sscan (j + 1)) j1
        rw [hinv.slen j1 hj1, hsp]
        simp only [sScored, hout, if_true]
    · simp only [Option.some.injEq] at hstep
      subst hstep
      refine GInv_server_frame n m s _ hinv hinv.bar (fun q _ => rfl) rfl rfl rfl ?_ ?_ ?_
        hinv.slot
      · show SLoc n m (s.sys.ctl n) (.sscore 0)
        refine ⟨hs1, fun h => absurd hout h, fun _ h => by simp at h, fun _ h => by simp at h,
          fun _ => hg1, fun j1 h => ?_⟩
        simp at h
        omega
      · show s.announce + (n * (s.sys.ctl n).gen + sPosted n (s.sys.ctl n) s.spc) =
          s.announce + (n * (s.sys.ctl n).gen + sPosted n (s.sys.ctl n) (.sscore 0))
        rw [hsp]
        simp only [sPosted, hout, if_true]
      · intro j1 hj1
        show (s.slog j1).length = sScored (s.sys.ctl n) (.sscore 0) j1
        rw [hinv.slen j1 hj1, hsp]
        simp [sScored, hout]
  case sscore j =>
    have hjn : j ≤ n := hs6 j (Or.inr (Or.inr hsp))
    have hsc : sScoring (s.sys.ctl n) s.spc = 1 := by rw [hsp]; simp [sScoring, hout]
    have hg1 : 1 ≤ (s.sys.ctl n).gen := hs5 hsc
    have hq := scoring_quiet n m s hinv hsc
    split at hstep
    · rename_i hlt
      simp only [Option.some.injEq] at hstep
      subst hstep
      refine GInv_server_frame n m s _ hinv hinv.bar (fun q _ => rfl) rfl rfl rfl ?_ ?_ ?_ ?_
      · show SLoc n m (s.sys.ctl n) (.sscore (j + 1))
        refine ⟨hs1, fun h => absurd hout h, fun _ h => by simp at h, fun _ h => by simp at h,
          fun _ => hg1, fun j1 h => ?_⟩
        simp at h
        omega
      · show s.announce + (n * (s.sys.ctl n).gen + sPosted n (s.sys.ctl n) s.spc) =
          s.announce + (n * (s.sys.ctl n).gen + sPosted n (s.sys.ctl n) (.sscore (j + 1)))
        rw [hsp]
        simp only [sPosted, hout, if_true]
      · intro j1 hj1
        show (Function.update s.slog j _ j1).length = sScored (s.sys.ctl n) (.sscore (j + 1)) j1
        have hold := hinv.slen j1 hj1
        rw [hsp] at hold
        simp only [sScored, hout, if_true] at hold ⊢
        by_cases hj : j1 = j
        · subst hj
          rw [Function.update_same]
          simp only [List.length_append, List.length_singleton, hold]
          rw [if_neg (by omega), if_pos (by omega)]
        · rw [Function.update_noteq hj, hold]
          by_cases hlt2 : j1 < j
          · rw [if_pos hlt2, if_pos (by omega)]
          · rw [if_neg hlt2, if_neg (by omega)]
      · intro j1 hj1
        show SlotOk ((scoreBody n s.max s.cnt { buf := s.buf, results := s.results } j).buf j1)
          (s.wlog j1) (Function.update s.slog j _ j1)
        by_cases hj : j1 = j
        · subst hj
          rw [Function.update_same]
          right
          refine ⟨?_, Or.inr (by simp)⟩
          have hold := hinv.slen j1 hj1
          rw [hsp] at hold
          simp only [sScored, hout, if_true] at hold
          rw [if_neg (by omega)] at hold
          simp only [List.length_append, List.length_singleton]
          rw [hq.2 j1 hj1, hold]
          omega
        · rw [Function.update_noteq hj, scoreBody_buf_ne _ _ _ _ _ _ hj]
          exact hinv.slot j1 hj1
    · rename_i hge
      simp only [Option.some.injEq] at hstep
      subst hstep
      refine GInv_server_frame n m s _ hinv hinv.bar (fun q _ => rfl) rfl rfl rfl ?_ ?_ ?_
        hinv.slot
      · show SLoc n m (s.sys.ctl n) (.sann 0)
        refine ⟨hs1, fun h => absurd hout h, fun _ h => by simp at h, fun _ h => by simp at h,
          fun h => by simp [sScoring, hout] at h, fun j1 h => ?_⟩
        simp at h
        omega
      · show s.announce + (n * (s.sys.ctl n).gen + sPosted n (s.sys.ctl n) s.spc) =
          s.announce + (n * (s.sys.ctl n).gen + sPosted n (s.sys.ctl n) (.sann 0))
        rw [hsp]
        simp only [sPosted, hout, if_true]
      · intro j1 hj1
        show (s.slog j1).length = sScored (s.sys.ctl n) (.sann 0) j1
        rw [hinv.slen j1 hj1, hsp]
        simp only [sScored, hout, if_true]
        rw [if_pos (by omega)]
        omega
  case sdone => simp at hstep

theorem GInv_init (n m : Nat) (junk : Nat → Nat → Int) (mx cn : Int) :
    GInv n m (gInit n m junk mx cn) := by
  have hsys : (gInit n m junk mx cn).sys = loopInit (n + 1) := by
    simp [gInit, loopInit]
  refine ⟨?_, ?_, ?_, ?_, ?_, ?_, ?_, ?_, ?_⟩
  · rw [hsys]; exact BInv_init (n + 1) (by omega)
  · intro j _
    exact ⟨Nat.zero_le _, fun h => absurd rfl h, fun _ h => by simp [gInit] at h,
      fun _ h => by simp [gInit] at h⟩
  · intro j _; rfl
  · exact ⟨Nat.zero_le _, fun h => absurd rfl h, fun _ h => by simp [gInit] at h,
      fun _ h => by simp [gInit] at h, fun h => by simp [gInit, sScoring] at h,
      fun j h => by simp [gInit] at h; omega⟩
  · show 0 + sumTo n (fun j => 0 + wPassed { gen := 0, pc := .out } .wwait) =
      n * 0 + sPosted n { gen := 0, pc := .out } (.sann 0)
    rw [wPassed_wait _ rfl, sumTo_const]
    simp [sPosted]
  · intro j _
    show 0 = 0 + wWritten { gen := 0, pc := .out } .wwait
    rw [wWritten_out _ _ rfl (by decide)]
  · intro j _
    show 0 = sScored { gen := 0, pc := .out } (.sann 0) j
    simp [sScored]
  · intro j _
    exact Or.inr ⟨rfl, Or.inl rfl⟩
  · intro j _
    show ((m : Nat) : Int) = (m : Int) - ((0 : Nat) : Int)
    simp

theorem GInv_step (n m : Nat) (s s1 : GState) (p r : Nat) (hp : p ≤ n) (hinv : GInv n m s)
    (hstep : gstep n m s p r = some s1) : GInv n m s1 := by
  unfold gstep at hstep
  split at hstep
  · rename_i hout
    split at hstep
    · rename_i hlt
      exact GInv_worker n m s s1 p r hlt hinv hout hstep
    · split at hstep
      · rename_i heq
        subst heq
        exact GInv_server p m s s1 hinv hout hstep
      · simp at hstep
  · unfold BSys.joinStep at hstep
    split at hstep
    · simp at hstep
    · rename_i y hy
      split at hy
      · simp at hy
      · rename_i b c hbc
        simp only [Option.some.injEq] at hy hstep
        subst hy
        subst hstep
        exact GInv_join n m s p hp b c hinv hbc

theorem GReach_inv (n m : Nat) (s : GState) (h : GReach n m s) : GInv n m s := by
  induction h with
  | init junk mx cn => exact GInv_init n m junk mx cn
  | step p r _ hp hstep ih => exact GInv_step n m _ _ p r hp ih hstep

theorem GReach_exec (n m : Nat) (sched : List (Nat × Nat)) (hs : ∀ x, x ∈ sched → x.1 ≤ n) :
    ∀ s, GReach n m s → GReach n m (gExec n m s sched) := by
  induction sched with
  | nil => intro s h; exact h
  | cons x xs ih =>
    intro s h
    have hx : x.1 ≤ n := hs x (List.mem_cons_self _ _)
    have hxs : ∀ y, y ∈ xs → y.1 ≤ n := fun y hy => hs y (List.mem_cons_of_mem _ hy)
    unfold gExec
    split
    · exact ih hxs s h
    · rename_i s1 hs1
      exact ih hxs s1 (GReach.step x.1 x.2 h hx hs1)

theorem getLast_index (l : List Int) (i : Nat) (v : Int) (hl : l.length = i + 1)
    (h : l.getLast? = some v) : l[i]? = some v := by
  rw [List.getLast?_eq_getElem?, hl] at h
  simpa using h

/-- Claim C5. No stale read by the coordinator: for `1 ≤ n ≤ 5` workers and hand size
`3 ≤ m ≤ 10`, in every reachable state in which the coordinator, scoring round
`i`, is about to read `buf[j]` in one of its two loops, worker `j` has written
exactly `i + 1` cards (its write of round `i` has happened, that of round `i + 1`
has not) and `buf[j]` holds the card it wrote in round `i`. -/
theorem coordinator_reads_fresh (n m : Nat) (_hn1 : 1 ≤ n) (_hn5 : n ≤ MAX_PLAYERS)
    (_hm3 : 3 ≤ m) (_hm10 : m ≤ MAX_CARDS) (s : GState) (hs : GReach n m s) (i j : Nat)
    (hj : j < n) (hout : (s.sys.ctl n).pc = .out) (hgen : (s.sys.ctl n).gen = i + 1)
    (hpc : s.spc = .sscan j ∨ s.spc = .sscore j) :
    i < m ∧ (s.wlog j).length = i + 1 ∧ (s.wlog j)[i]? = some (s.buf j) ∧
    (s.slog j).length = i := by
  have hinv := GReach_inv n m s hs
  have hsc : sScoring (s.sys.ctl n) s.spc = 1 := by
    rcases hpc with h | h <;> rw [h] <;> simp [sScoring, hout]
  have hq := (scoring_quiet n m s hinv hsc).2 j hj
  have hsl := hinv.slen j hj
  have hslen : (s.slog j).length = i := by
    rw [hsl]
    rcases hpc with h | h <;> rw [h] <;> simp [sScored, hout, hgen]
  have hm := hinv.sloc.1
  refine ⟨by omega, by omega, ?_, hslen⟩
  rcases hinv.slot j hj with ⟨_, h2⟩ | ⟨h1, _⟩
  · exact getLast_index _ _ _ (by omega) h2
  · omega

/-- Claim C6. Score delivery to workers: in every reachable state in which worker `j`
is at the read of `buf[j]` that follows its `(i+2)`-th `sem_wait(announce)` (the
read at the start of round `i + 1`, or the final read when `i + 1 = m`), the
coordinator has written exactly `i + 1` scores to `buf[j]`, `buf[j]` holds the
score it wrote when scoring round `i`, and the coordinator has completed the
scoring of round `i` and has not started that of round `i + 1`. -/
theorem worker_reads_score (n m : Nat) (_hn1 : 1 ≤ n) (_hn5 : n ≤ MAX_PLAYERS)
    (_hm3 : 3 ≤ m) (_hm10 : m ≤ MAX_CARDS) (s : GState) (hs : GReach n m s) (i j : Nat)
    (hj : j < n) (hout : (s.sys.ctl j).pc = .out) (hgen : (s.sys.ctl j).gen = i + 1)
    (hpc : s.wpc j = .wread ∨ s.wpc j = .wreadF) :
    i < m ∧ (s.slog j).length = i + 1 ∧ (s.slog j)[i]? = some (s.buf j) ∧
    (s.sys.ctl n).gen = i + 1 ∧ sScoring (s.sys.ctl n) s.spc = 0 ∧
    wTokens s j = i + 2 := by
  have hinv := GReach_inv n m s hs
  have hne : s.wpc j ≠ .wwait := by
    rcases hpc with h | h <;> rw [h] <;> decide
  have hnj : s.wpc j ≠ .wjoin := by
    rcases hpc with h | h <;> rw [h] <;> decide
  obtain ⟨ha1, ha2, _, ha4⟩ := worker_active n m s hinv j hj hout hne
  have hsl := hinv.slen j hj
  have hwl := hinv.wlen j hj
  rw [wWritten_out _ _ hout hnj] at hwl
  have hm := (hinv.wloc j hj).1
  have htok : wTokens s j = i + 2 := by
    unfold wTokens; rw [wPassed_ne _ _ hne]; omega
  refine ⟨by omega, by omega, ?_, by omega, ha2, htok⟩
  rcases hinv.slot j hj with ⟨h1, _⟩ | ⟨_, h2 | h2⟩
  · omega
  · exfalso
    rw [h2] at hsl
    simp at hsl
    omega
  · exact getLast_index _ _ _ (by omega) h2

theorem sumTo_eq_of_ge (n c : Nat) (f : Nat → Nat) (h : ∀ j, j < n → f j ≤ c)
    (hs : n * c ≤ sumTo n f) : ∀ j, j < n → f j = c := by
  induction n with
  | zero => intro j hj; omega
  | succ n ih =>
    simp only [sumTo] at hs
    rw [Nat.succ_mul] at hs
    have hprev : ∀ j, j < n → f j ≤ c := fun j hj => h j (Nat.lt_succ_of_lt hj)
    have h1 : sumTo n f ≤ n * c := by
      have := sumTo_le_of_le (f := f) (g := fun _ => c) hprev
      rw [sumTo_const] at this
      exact this
    have h2 := h n (Nat.lt_succ_self n)
    intro j hj
    rcases Nat.lt_succ_iff_lt_or_eq.mp hj with h3 | h3
    · exact ih hprev (by omega) j h3
    · subst h3; omega

theorem blocked_of_none (n m : Nat) (s : GState) (p : Nat) (hp : p ≤ n)
    (h : gstep n m s p 0 = none) : Blocked n s p := by
  unfold gstep at h
  unfold Blocked finished
  by_cases hout : (s.sys.ctl p).pc = .out
  · rw [if_pos hout] at h
    by_cases hlt : p < n
    · rw [if_pos hlt] at h
      unfold worker_run_step at h
      cases hw : s.wpc p with
      | wwait =>
        rw [hw] at h
        simp only [] at h
        split at h
        · simp at h
        · exact Or.inr (Or.inr (Or.inr (Or.inr (Or.inl ⟨hout, hlt, rfl, by omega⟩))))
      | wdone =>
        exact Or.inr (Or.inr (Or.inr (Or.inr (Or.inr ⟨hout, by rw [if_pos hlt]⟩))))
      | wread => rw [hw] at h; simp at h
      | wwrite => rw [hw] at h; simp at h
      | wjoin => rw [hw] at h; simp at h
      | wreadF => rw [hw] at h; simp at h
    · have hpn : p = n := by omega
      rw [if_neg hlt, if_pos hpn] at h
      unfold server_run_step at h
      cases hsp : s.spc with
      | sdone =>
        exact Or.inr (Or.inr (Or.inr (Or.inr (Or.inr ⟨hout, by rw [if_neg hlt]⟩))))
      | sann j => rw [hsp] at h; simp only [] at h; split at h <;> simp at h
      | sscan j => rw [hsp] at h; simp only [] at h; split at h <;> simp at h
      | sscore j => rw [hsp] at h; simp only [] at h; split at h <;> simp at h
      | sjoin => rw [hsp] at h; simp at h
      | sreset => rw [hsp] at h; simp at h
  · rw [if_neg hout] at h
    have hj : br_join_step s.sys.bar (s.sys.ctl p) = none := by
      cases hb : br_join_step s.sys.bar (s.sys.ctl p) with
      | none => rfl
      | some bc =>
        unfold BSys.joinStep at h
        rw [hb] at h
        simp at h
    unfold br_join_step at hj
    cases hpc : (s.sys.ctl p).pc with
    | out => exact absurd hpc hout
    | lock1 =>
      rw [hpc] at hj; simp only [] at hj
      split at hj
      · simp at hj
      · exact Or.inl ⟨rfl, by omega⟩
    | lock2 =>
      rw [hpc] at hj; simp only [] at hj
      split at hj
      · simp at hj
      · exact Or.inr (Or.inl ⟨rfl, by omega⟩)
    | wait1 =>
      rw [hpc] at hj; simp only [] at hj
      split at hj
      · simp at hj
      · exact Or.inr (Or.inr (Or.inl ⟨rfl, by omega⟩))
    | wait2 =>
      rw [hpc] at hj; simp only [] at hj
      split at hj
      · simp at hj
      · exact Or.inr (Or.inr (Or.inr (Or.inl ⟨rfl, by omega⟩)))
    | test1 => rw [hpc] at hj; simp only [] at hj; split at hj <;> simp at hj
    | test2 => rw [hpc] at hj; simp only [] at hj; split at hj <;> simp at hj
    | post1 i => rw [hpc] at hj; simp only [] at hj; split at hj <;> simp at hj
    | post2 i => rw [hpc] at hj; simp only [] at hj; split at hj <;> simp at hj
    | inc => rw [hpc] at hj; simp at hj
    | dec => rw [hpc] at hj; simp at hj
    | unlock1 => rw [hpc] at hj; simp at hj
    | unlock2 => rw [hpc] at hj; simp at hj

/-- A blocked process is at one of the four `sem_wait`s of `br_join` or outside. -/
theorem blocked_pc (n : Nat) (s : GState) (p : Nat) (h : Blocked n s p) :
    (s.sys.ctl p).pc = .lock1 ∨ (s.sys.ctl p).pc = .lock2 ∨ (s.sys.ctl p).pc = .wait1 ∨
    (s.sys.ctl p).pc = .wait2 ∨ (s.sys.ctl p).pc = .out := by
  unfold Blocked finished at h
  rcases h with h | h | h | h | h | h
  · exact Or.inl h.1
  · exact Or.inr (Or.inl h.1)
  · exact Or.inr (Or.inr (Or.inl h.1))
  · exact Or.inr (Or.inr (Or.inr (Or.inl h.1)))
  · exact Or.inr (Or.inr (Or.inr (Or.inr h.1)))
  · exact Or.inr (Or.inr (Or.inr (Or.inr h.1)))

theorem blocked_weights (k : Nat) (pc : JPc)
    (h : pc = .lock1 ∨ pc = .lock2 ∨ pc = .wait1 ∨ pc = .wait2 ∨ pc = .out) :
    hold pc = 0 ∧ tw1 k pc = 0 ∧ pw1 k pc = 0 ∧ tw2 k pc = 0 ∧ pw2 k pc = 0 := by
  rcases h with h | h | h | h | h <;> subst h <;> simp

theorem finished_worker (n : Nat) (s : GState) (j : Nat) (hj : j < n) (h : finished n s j) :
    (s.sys.ctl j).pc = .out ∧ s.wpc j = .wdone := by
  unfold finished at h
  rw [if_pos hj] at h
  exact h

theorem finished_server (n : Nat) (s : GState) (h : finished n s n) :
    (s.sys.ctl n).pc = .out ∧ s.spc = .sdone := by
  unfold finished at h
  rw [if_neg (Nat.lt_irrefl n)] at h
  exact h

/-- Claim C9. No participant is left permanently blocked: for `1 ≤ n ≤ 5` workers and
hand size `3 ≤ m ≤ 10`, every reachable state of the game in which some process
has not returned from its run function has an enabled step, and in a reachable
state where all have returned `announce`, `turnstile_pre` and `turnstile_post`
hold no pending post and `count` is `0`. -/
theorem no_deadlock (n m : Nat) (_hn1 : 1 ≤ n) (_hn5 : n ≤ MAX_PLAYERS) (_hm3 : 3 ≤ m)
    (_hm10 : m ≤ MAX_CARDS) (s : GState) (hs : GReach n m s) :
    ((∃ p, p ≤ n ∧ ¬ finished n s p) →
      ∃ p r, p ≤ n ∧ (gstep n m s p r).isSome = true) ∧
    ((∀ p, p ≤ n → finished n s p) →
      s.announce = 0 ∧ s.sys.bar.turnstile_pre = 0 ∧ s.sys.bar.turnstile_post = 0 ∧
      s.sys.bar.count = 0) := by
  have hinv := GReach_inv n m s hs
  have hann : s.announce + sumTo n (wTokens s) =
      n * (s.sys.ctl n).gen + sPosted n (s.sys.ctl n) s.spc := hinv.ann
  constructor
  · rintro ⟨p0, hp0, hnf⟩
    by_contra hcon
    have hnone : ∀ p, p ≤ n → gstep n m s p 0 = none := by
      intro p hp
      cases hg : gstep n m s p 0 with
      | none => rfl
      | some s1 => exact absurd ⟨p, 0, hp, by rw [hg]; rfl⟩ hcon
    have hB : ∀ p, p ≤ n → Blocked n s p :=
      fun p hp => blocked_of_none n m s p hp (hnone p hp)
    have hW := fun q (hq : q < n + 1) =>
      blocked_weights (n + 1) _ (blocked_pc n s q (hB q (by omega)))
    have z0 : wsum (n + 1) s.sys.ctl hold = 0 :=
      wsum_eq_zero_of _ _ _ (fun q hq => (hW q hq).1)
    have z1 : wsum (n + 1) s.sys.ctl (tw1 (n + 1)) = 0 :=
      wsum_eq_zero_of _ _ _ (fun q hq => (hW q hq).2.1)
    have z2 : wsum (n + 1) s.sys.ctl (pw1 (n + 1)) = 0 :=
      wsum_eq_zero_of _ _ _ (fun q hq => (hW q hq).2.2.1)
    have z3 : wsum (n + 1) s.sys.ctl (tw2 (n + 1)) = 0 :=
      wsum_eq_zero_of _ _ _ (fun q hq => (hW q hq).2.2.2.1)
    have z4 : wsum (n + 1) s.sys.ctl (pw2 (n + 1)) = 0 :=
      wsum_eq_zero_of _ _ _ (fun q hq => (hW q hq).2.2.2.2)
    have hmtx := hinv.bar.mtx
    have hB2 : ∀ p, p ≤ n →
        ((s.sys.ctl p).pc = .wait1 ∧ s.sys.bar.turnstile_pre = 0) ∨
        ((s.sys.ctl p).pc = .wait2 ∧ s.sys.bar.turnstile_post = 0) ∨
        ((s.sys.ctl p).pc = .out ∧ p < n ∧ s.wpc p = .wwait ∧ s.announce = 0) ∨
        finished n s p := by
      intro p hp
      rcases hB p hp with h | h | h | h | h | h
      · exfalso; have := h.2; omega
      · exfalso; have := h.2; omega
      · exact Or.inl h
      · exact Or.inr (Or.inl h)
      · exact Or.inr (Or.inr (Or.inl h))
      · exact Or.inr (Or.inr (Or.inr h))
    obtain ⟨g, hU | hD⟩ := hinv.bar.phase
    · have hpost := hU.post
      rw [z3, z4] at hpost
      have hi3 : wsum (n + 1) s.sys.ctl is3 = 0 := by
        by_cases h0 : s.sys.bar.turnstile_post = 0
        · omega
        · apply wsum_eq_zero_of
          intro q hq
          rcases hB2 q (by omega) with h | h | h | h
          · rw [h.1]; rfl
          · exact absurd h.2 h0
          · rw [h.1]; rfl
          · rw [h.1]; rfl
      have hB3 : ∀ p, p ≤ n →
          ((s.sys.ctl p).pc = .wait1 ∧ s.sys.bar.turnstile_pre = 0) ∨
          ((s.sys.ctl p).pc = .out ∧ p < n ∧ s.wpc p = .wwait ∧ s.announce = 0) ∨
          finished n s p := by
        intro p hp
        rcases hB2 p hp with h | h | h | h
        · exact Or.inl h
        · exfalso
          have := wsum_term_le (n + 1) s.sys.ctl is3 p (by omega)
          rw [h.1] at this
          simp only [is3] at this
          omega
        · exact Or.inr (Or.inl h)
        · exact Or.inr (Or.inr h)
      have hlocU : ∀ q, q ≤ n → stage (s.sys.ctl q).pc ≤ 1 → (s.sys.ctl q).gen = g := by
        intro q hq hst
        have := hU.loc q (by omega)
        unfold locU at this
        omega
      rcases hB3 n (Nat.le_refl n) with hc | hc | hc
      · -- the coordinator waits at the entry turnstile
        have hgn : (s.sys.ctl n).gen = g := hlocU n (Nat.le_refl n) (by rw [hc.1]; decide)
        have hne : (s.sys.ctl n).pc ≠ .out := by rw [hc.1]; decide
        have hgm : g < m := by
          have := (hinv.sloc.2.1 hne).2
          omega
        have hposted : sPosted n (s.sys.ctl n) s.spc = n := by
          unfold sPosted; rw [if_neg hne]
        rw [hposted, hgn] at hann
        have hwt : ∀ j, j < n → wTokens s j ≤ g + 1 ∧
            ((s.sys.ctl j).pc ≠ .wait1 → wTokens s j = g ∧ s.announce = 0) := by
          intro j hj
          rcases hB3 j (by omega) with h | h | h
          · have hgj := hlocU j (by omega) (by rw [h.1]; decide)
            have : wTokens s j = g + 1 := by
              unfold wTokens
              rw [wPassed_in _ _ (by rw [h.1]; decide), hgj]
            exact ⟨by omega, fun hx => absurd h.1 hx⟩
          · have hgj := hlocU j (by omega) (by rw [h.1]; decide)
            have : wTokens s j = g := by
              unfold wTokens
              rw [h.2.2.1, wPassed_wait _ h.1, hgj]
              rfl
            exact ⟨by omega, fun _ => ⟨this, h.2.2.2⟩⟩
          · exfalso
            obtain ⟨ho, hd⟩ := finished_worker n s j hj h
            have hgj := hlocU j (by omega) (by rw [ho]; decide)
            have := (hinv.wloc j hj).2.2.2 ho (Or.inr hd)
            omega
        have hall : ∀ j, j < n → (s.sys.ctl j).pc = .wait1 := by
          intro j hj
          by_contra hx
          obtain ⟨h1, h2⟩ := (hwt j hj).2 hx
          have := sumTo_eq_of_ge n (g + 1) (wTokens s) (fun j hj => (hwt j hj).1)
            (by rw [Nat.mul_succ]; omega) j hj
          omega
        have hfull : wsum (n + 1) s.sys.ctl is1 = n + 1 := by
          apply wsum_full
          intro q hq
          by_cases hqn : q < n
          · rw [hall q hqn]; rfl
          · have : q = n := by omega
            rw [this, hc.1]; rfl
        have h1 := hU.cnt
        have h2 := hU.lt
        rw [hfull] at h1
        omega
      · omega
      · -- the coordinator has finished
        obtain ⟨ho, hd⟩ := finished_server n s hc
        have hgn : (s.sys.ctl n).gen = g := hlocU n (Nat.le_refl n) (by rw [ho]; decide)
        have hgm : g = m := by
          have := hinv.sloc.2.2.2.1 ho hd
          omega
        have hposted : sPosted n (s.sys.ctl n) s.spc = n := by
          unfold sPosted; rw [if_pos ho, hd]
        rw [hposted, hgn] at hann
        have hwt : ∀ j, j < n → wTokens s j ≤ g + 1 ∧
            (¬ finished n s j → wTokens s j = g ∧ s.announce = 0) := by
          intro j hj
          rcases hB3 j (by omega) with h | h | h
          · exfalso
            have hgj := hlocU j (by omega) (by rw [h.1]; decide)
            have := ((hinv.wloc j hj).2.1 (by rw [h.1]; decide)).2
            omega
          · have hgj := hlocU j (by omega) (by rw [h.1]; decide)
            have : wTokens s j = g := by
              unfold wTokens
              rw [h.2.2.1, wPassed_wait _ h.1, hgj]
              rfl
            exact ⟨by omega, fun _ => ⟨this, h.2.2.2⟩⟩
          · obtain ⟨ho1, hd1⟩ := finished_worker n s j hj h
            have hgj := hlocU j (by omega) (by rw [ho1]; decide)
            have : wTokens s j = g + 1 := by
              unfold wTokens
              rw [wPassed_ne _ _ (by rw [hd1]; decide), hgj]
            exact ⟨by omega, fun hx => absurd h hx⟩
        have hp0n : p0 < n := by
          by_contra hx
          have : p0 = n := by omega
          rw [this] at hnf
          exact hnf hc
        obtain ⟨h1, h2⟩ := (hwt p0 hp0n).2 hnf
        have := sumTo_eq_of_ge n (g + 1) (wTokens s) (fun j hj => (hwt j hj).1)
          (by rw [Nat.mul_succ]; omega) p0 hp0n
        omega
    · have hpre := hD.pre
      rw [z1, z2] at hpre
      have hi1 : wsum (n + 1) s.sys.ctl is1 = 0 := by
        by_cases h0 : s.sys.bar.turnstile_pre = 0
        · omega
        · apply wsum_eq_zero_of
          intro q hq
          rcases hB2 q (by omega) with h | h | h | h
          · exact absurd h.2 h0
          · rw [h.1]; rfl
          · rw [h.1]; rfl
          · rw [h.1]; rfl
      have hi2 : wsum (n + 1) s.sys.ctl is2 = 0 := by
        apply wsum_eq_zero_of
        intro q hq
        rcases hB2 q (by omega) with h | h | h | h
        · rw [h.1]; rfl
        · rw [h.1]; rfl
        · rw [h.1]; rfl
        · rw [h.1]; rfl
      have h1 := hD.cnt
      have h2 := hD.pos
      rw [hi1, hi2] at h1
      omega
  · intro hfin
    have hout : ∀ q, q < n + 1 → (s.sys.ctl q).pc = .out := fun q hq => (hfin q (by omega)).1
    have z1 := wsum_out (n + 1) s.sys.ctl is1 rfl hout
    have z3 := wsum_out (n + 1) s.sys.ctl is3 rfl hout
    obtain ⟨ho, hd⟩ := finished_server n s (hfin n (Nat.le_refl n))
    have hgn : (s.sys.ctl n).gen = m := hinv.sloc.2.2.2.1 ho hd
    have hposted : sPosted n (s.sys.ctl n) s.spc = n := by
      unfold sPosted; rw [if_pos ho, hd]
    rw [hposted, hgn] at hann
    have hsum : sumTo n (wTokens s) = n * (m + 1) := by
      rw [← sumTo_const]
      apply sumTo_congr
      intro j hj
      obtain ⟨ho1, hd1⟩ := finished_worker n s j hj (hfin j (by omega))
      have := (hinv.wloc j hj).2.2.2 ho1 (Or.inr hd1)
      unfold wTokens
      rw [wPassed_ne _ _ (by rw [hd1]; decide), this]
    rw [hsum, Nat.mul_succ] at hann
    obtain ⟨g, hU | hD⟩ := hinv.bar.phase
    · have h1 := hU.cnt
      have h2 := hU.pre
      have h3 := hU.post
      rw [z1] at h1
      rw [z3] at h3
      refine ⟨by omega, h2, by omega, by simpa using h1⟩
    · exfalso
      have := (hD.loc n (by omega)).2
      rw [ho] at this
      simp at this

theorem scoringState_reach : GReach 1 3 scoringState :=
  GReach_exec 1 3 scoringSchedule (by decide) _ (GReach.init _ _ _)

theorem readState_reach : GReach 1 3 readState :=
  GReach_exec 1 3 readSchedule (by decide) _ (GReach.init _ _ _)

/-- Instance of C5: one worker, hand size `3`; the coordinator is about to read
`buf[0]` in round `0` and finds the card `2` the worker drew. -/
theorem coordinator_reads_fresh_witness :
    GReach 1 3 scoringState ∧ (scoringState.sys.ctl 1).pc = .out ∧
    (scoringState.sys.ctl 1).gen = 0 + 1 ∧ scoringState.spc = .sscan 0 ∧
    (scoringState.wlog 0)[0]? = some (scoringState.buf 0) ∧ scoringState.buf 0 = 2 :=
  ⟨scoringState_reach, by decide!, by decide!, by decide!,
   (coordinator_reads_fresh 1 3 (by decide) (by decide) (by decide) (by decide) scoringState
      scoringState_reach 0 0 (by decide) (by decide!) (by decide!) (Or.inl (by decide!))).2.2.1,
   by decide!⟩

/-- Instance of C6: one worker, hand size `3`; the worker is at the read that
starts round `1` and finds the score `1` of round `0`. -/
theorem worker_reads_score_witness :
    GReach 1 3 readState ∧ (readState.sys.ctl 0).pc = .out ∧
    (readState.sys.ctl 0).gen = 0 + 1 ∧ readState.wpc 0 = .wread ∧
    (readState.slog 0)[0]? = some (readState.buf 0) ∧ readState.buf 0 = 1 :=
  ⟨readState_reach, by decide!, by decide!, by decide!,
   (worker_reads_score 1 3 (by decide) (by decide) (by decide) (by decide) readState
      readState_reach 0 0 (by decide) (by decide!) (by decide!) (Or.inl (by decide!))).2.2.1,
   by decide!⟩

theorem finalState_reach : GReach 1 3 finalState :=
  GReach_exec 1 3 fullSchedule (by decide!) _ (GReach.init _ _ _)

/-- Instances of C9: in the state `readState` the worker has not finished, so some
process can move; in `finalState` both processes have returned and the three
semaphores and `count` are `0`. -/
theorem no_deadlock_witness :
    (GReach 1 3 readState ∧ ¬ finished 1 readState 0 ∧
      ∃ p r, p ≤ 1 ∧ (gstep 1 3 readState p r).isSome = true) ∧
    (GReach 1 3 finalState ∧ (∀ p, p ≤ 1 → finished 1 finalState p) ∧
      finalState.announce = 0 ∧ finalState.sys.bar.turnstile_pre = 0 ∧
      finalState.sys.bar.turnstile_post = 0 ∧ finalState.sys.bar.count = 0) :=
  ⟨⟨readState_reach, by decide!,
    (no_deadlock 1 3 (by decide) (by decide) (by decide) (by decide) readState
      readState_reach).1 ⟨0, by decide, by decide!⟩⟩,
   ⟨finalState_reach, by decide!,
    (no_deadlock 1 3 (by decide) (by decide) (by decide) (by decide) finalState
      finalState_reach).2 (by decide!)⟩⟩

end SemaphoresGoBrrr
